import Mathlib

/-!
Verification of the playdate-api client against its specification.

The development shallowly embeds the two source files:
* `src/index.js` — the `PlaydateClient` class (device registration state
  machine).  Client-observable state is a `ClientState`, the network is an
  oracle `Net`, and every operation returns its result together with the
  list of network requests it issued.
* `src/decrypt.js` — the AES-256-GCM envelope key-unwrap routine, embedded
  together with a byte-level model of Node's `aes-256-gcm` decipher.
-/

set_option maxRecDepth 100000

deriving instance DecidableEq for Except

namespace Playdate

/-! ## Embedding of `src/index.js` -/

/-- Errors raised by the client code.  `jsError msg` is `throw new Error(msg)`;
`typeErrorNullRead` is the TypeError raised by calling `.getAttribute` on the
`null` returned by `querySelector` when the element is absent;
`referenceErrorDigit` is the ReferenceError raised by evaluating the unbound
identifier `digit` in `getDevicePin`.  `pageNotFound` is the distinct
`PageNotFoundError` value demanded by the specification's error taxonomy; the
code never produces it. -/
inductive JsErr where
  | jsError (msg : String)
  | typeErrorNullRead
  | referenceErrorDigit
  | pageNotFound
deriving DecidableEq, Repr

/-- A network request issued by the client (the observable I/O trace). -/
inductive NetEv where
  | get (url : String)
  | post (url : String)
  | api (url : String) (idemKey : String)
deriving DecidableEq, Repr

/-- Response to a cookie-bearing page GET, at the interface the code observes
through jsdom: `csrf = none` means the document has no
`input[name="csrfmiddlewaretoken"]` element; `csrf = some v` means the element
is present and `getAttribute "value"` returns `v` (`none` = null). -/
structure PageResp where
  ok : Bool
  csrf : Option (Option String)
deriving DecidableEq

/-- Response to a form POST. -/
structure PostResp where
  ok : Bool
deriving DecidableEq

/-- JSON body returned by the registration API endpooints, restricted to the
fields the code reads.  A missing field is `none` (JS `undefined`). -/
structure ApiJson where
  pin : Option String
  access_token : Option String
deriving DecidableEq, Repr

/-- The network oracle: what the remote service answers to each request.
`page` serves cookie GETs, `post` serves form POSTs (given the form fields),
`api` serves the registration API fetches (given the `idempotency-key`
header). -/
structure Net where
  page : String → PageResp
  post : String → List (String × String) → PostResp
  api : String → String → ApiJson

/-- The mutable fields of a `PlaydateClient` instance that the embedded
operations read or write: `this.token`, `this.loginToken`,
`this.idempotencyKey` and the Authorization member of `this.headers`. -/
structure ClientState where
  token : Option String
  loginToken : Option String
  idempotencyKey : Option String
  authHeader : String
deriving DecidableEq, Repr

/-- JS truthiness of a string-or-null/undefined value (`""`, `null` and
`undefined` are falsy). -/
def truthyStr : Option String → Bool
  | none => false
  | some s => !s.isEmpty

/-- JS template/string coercion where the missing value is `null`. -/
def jsNull : Option String → String
  | none => "null"
  | some s => s

/-- JS template/string coercion where the missing value is `undefined`. -/
def jsUndef : Option String → String
  | none => "undefined"
  | some s => s

def baseURL : String := "https://play.date/api/v2"

def baseWebURL : String := "https://play.date"

/-- The test performed by `serial.match(/^PDU1-Y[0-9]{6}$/)`: the whole string
is the literal `PDU1-Y` followed by exactly six decimal digits. -/
def serialRegexTest (s : String) : Bool :=
  match s.data with
  | 'P' :: 'D' :: 'U' :: '1' :: '-' :: 'Y' :: rest =>
      rest.length == 6 && rest.all (fun c => c.isDigit)
  | _ => false

/-- `_validateSerial` (src/index.js:33-47): an exact-length check followed by
the regular-expression match; both failure paths throw
`Error("Invalid serial number: " + serial)`. -/
def validateSerial (s : String) : Except JsErr Unit :=
  if s.length ≠ 12 then .error (.jsError ("Invalid serial number: " ++ s))
  else if serialRegexTest s then .ok ()
  else .error (.jsError ("Invalid serial number: " ++ s))

/-- `_getMiddlewareToken` (src/index.js:86-99): cookie GET, `ok` check, then
`querySelector('input[name="csrfmiddlewaretoken"]').getAttribute("value")`.
When the element is absent `querySelector` returns `null` and the
`.getAttribute` call raises a TypeError. -/
def getMiddlewareToken (net : Net) (url : String) :
    Except JsErr (Option String) × List NetEv :=
  let r := net.page url
  if !r.ok then (.error (.jsError "Invalid request."), [.get url])
  else
    match r.csrf with
    | none => (.error .typeErrorNullRead, [.get url])
    | some v => (.ok v, [.get url])

/-- `removeDevice` (src/index.js:139-159). -/
def removeDevice (net : Net) (st : ClientState) (serialNumber : String) :
    Except JsErr PostResp × List NetEv :=
  if !truthyStr st.loginToken then
    (.error (.jsError "You must be logged in to remove a device"), [])
  else
    match validateSerial serialNumber with
    | .error e => (.error e, [])
    | .ok _ =>
      let url := baseWebURL ++ "/devices/" ++ serialNumber ++ "/remove/"
      match getMiddlewareToken net url with
      | (.error e, evs) => (.error e, evs)
      | (.ok token, evs) =>
        if !truthyStr token then (.error (.jsError "Device not found"), evs)
        else (.ok (net.post url [("csrfmiddlewaretoken", jsNull token)]),
              evs ++ [.post url])

/-- `getDevicePin` (src/index.js:167-180).  After serial validation the code
evaluates `Math.random().toFixed(digit)`, but the identifier `digit` is bound
nowhere in the module, so the expression raises a ReferenceError before
`this.idempotencyKey` is assigned and before the fetch is issued. -/
def getDevicePin (net : Net) (st : ClientState) (serialNumber : String) :
    Except JsErr ApiJson × ClientState × List NetEv :=
  match validateSerial serialNumber with
  | .error e => (.error e, st, [])
  | .ok _ => (.error .referenceErrorDigit, st, [])

/-- `addDevice` (src/index.js:187-213). -/
def addDevice (net : Net) (st : ClientState) (pin : Option String) :
    Except JsErr Bool × List NetEv :=
  if !truthyStr st.loginToken then
    (.error (.jsError "You must be logged in to add a device"), [])
  else
    let url := baseWebURL ++ "/pin/"
    match getMiddlewareToken net url with
    | (.error e, evs) => (.error e, evs)
    | (.ok token, evs) =>
      let r := net.post url [("csrfmiddlewaretoken", jsNull token), ("pin", jsUndef pin)]
      if !r.ok then (.error (.jsError "Could not add device."), evs ++ [.post url])
      else (.ok true, evs ++ [.post url])

/-- `getDeviceAccessToken` (src/index.js:221-237): requires a stored
idempotency key, validates the serial, fetches the completion endpoint with
the stored key in the `idempotency-key` header, then clears the key. -/
def getDeviceAccessToken (net : Net) (st : ClientState) (serialNumber : String) :
    Except JsErr ApiJson × ClientState × List NetEv :=
  if !truthyStr st.idempotencyKey then
    (.error (.jsError "You must first add a device before this can be called."), st, [])
  else
    match validateSerial serialNumber with
    | .error e => (.error e, st, [])
    | .ok _ =>
      let key := jsUndef st.idempotencyKey
      let url := baseURL ++ "/device/register/" ++ serialNumber ++ "/complete/"
      let json := net.api url key
      (.ok json, { st with idempotencyKey := none }, [.api url key])

/-- `registerDevice` (src/index.js:246-280): login gate, serial validation,
best-effort `removeDevice` inside `try { } catch { }`, then PIN request,
`addDevice`, completion fetch, and finally the credential commit. -/
def registerDevice (net : Net) (st : ClientState) (serialNumber : String) :
    Except JsErr ApiJson × ClientState × List NetEv :=
  if !truthyStr st.loginToken then
    (.error (.jsError "You must be logged in register a device"), st, [])
  else
    match validateSerial serialNumber with
    | .error e => (.error e, st, [])
    | .ok _ =>
      let rm := removeDevice net st serialNumber
      let evs1 := rm.2
      match getDevicePin net st serialNumber with
      | (.error e, st2, evs2) => (.error e, st2, evs1 ++ evs2)
      | (.ok json, st2, evs2) =>
        match addDevice net st2 json.pin with
        | (.error e, evs3) => (.error e, st2, evs1 ++ evs2 ++ evs3)
        | (.ok _, evs3) =>
          match getDeviceAccessToken net st2 serialNumber with
          | (.error e, st3, evs4) => (.error e, st3, evs1 ++ evs2 ++ evs3 ++ evs4)
          | (.ok complete, st3, evs4) =>
            let newToken := complete.access_token
            let st4 : ClientState :=
              { st3 with
                token := newToken
                loginToken := newToken
                authHeader := "Token " ++ jsUndef newToken }
            (.ok complete, st4, evs1 ++ evs2 ++ evs3 ++ evs4)

/-- Whether an `Except` result is a success. -/
def isOkB : Except JsErr α → Bool
  | .ok _ => true
  | .error _ => false

/-- The shape the specification ascribes to serial numbers: the prefix
characters `PDU1-Y` followed by exactly six decimal digits. -/
def SerialShape (s : String) : Prop :=
  ∃ d : List Char, d.length = 6 ∧ (∀ c ∈ d, c.isDigit = true) ∧
    s.data = 'P' :: 'D' :: 'U' :: '1' :: '-' :: 'Y' :: d

/-- A network oracle whose pages always carry a csrf token and whose API
answers are fixed; used to instantiate universally quantified theorems. -/
def net0 : Net where
  page := fun _ => { ok := true, csrf := some (some "csrf0") }
  post := fun _ _ => { ok := true }
  api := fun _ _ => { pin := some "1234", access_token := some "AT" }

/-- A logged-in client state with no pending registration. -/
def st0 : ClientState where
  token := some "T0"
  loginToken := some "logged+in"
  idempotencyKey := none
  authHeader := "Token T0"

/-- A client state that never logged in. -/
def stOut : ClientState where
  token := some "T0"
  loginToken := none
  idempotencyKey := none
  authHeader := "Token T0"

/-- A network oracle whose pages load but contain no
`csrfmiddlewaretoken` input element. -/
def noCsrfNet : Net where
  page := fun _ => { ok := true, csrf := none }
  post := fun _ _ => { ok := true }
  api := fun _ _ => { pin := none, access_token := none }

/-! ## Embedding of `src/decrypt.js`

`decrypt.js` drives Node's `crypto.createDecipheriv("aes-256-gcm", …)`.
The cipher itself is modelled at the byte level, faithfully to
FIPS-197 (AES-256) and NIST SP 800-38D (GCM): the implementation below
reproduces the published AES-256 and AES-256-GCM test vectors.
Bytes are `Nat`s below 256. -/

/-- All entries of a byte list are in range. -/
def allBytes (l : List Nat) : Prop := ∀ x ∈ l, x < 256

instance decidableAllBytes (l : List Nat) : Decidable (allBytes l) :=
  List.decidableBAll _ l

/-- AES `xtime`: multiplication by `x` in GF(2^8) modulo `x^8+x^4+x^3+x+1`
(clearing the overflow bit is subtracting 256, then the tail `0x1B` is
xored in). -/
def xtime (b : Nat) : Nat :=
  if 128 ≤ b then ((2 * b) - 256) ^^^ 0x1B else 2 * b

/-- Iterated `xtime` (multiplication by a power of `x` in GF(2^8)). -/
def xtimePow : Nat → Nat → Nat
  | 0, a => a
  | n + 1, a => xtime (xtimePow n a)

/-- GF(2^8) product, accumulating `a·x^n` for each set bit `n` of `b`. -/
def gf8mulAux : Nat → Nat → Nat → Nat
  | 0, _, _ => 0
  | n + 1, a, b => (if b.testBit n then xtimePow n a else 0) ^^^ gf8mulAux n a b

/-- GF(2^8) multiplication. -/
def gf8mul (a b : Nat) : Nat := gf8mulAux 8 a b

/-- Rotate an 8-bit value left by one. -/
def rotl8 (b : Nat) : Nat := (2 * b) % 256 + b / 128

/-- The AES S-box, packed little-endian into one integer (entry `i` is byte
`i`).  The theorem `sbox_table_characterization` below verifies the table
against the FIPS-197 definition: entry 0 is `0x63` and every other entry is
the affine image of the GF(2^8) inverse of its index. -/
def packedSbox : Nat := 0x16bb54b00f2d99416842e6bf0d89a18cdf2855cee9871e9b948ed9691198f8e19e1dc186b95735610ef6034866b53e708a8bbd4b1f74dde8c6b4a61c2e2578ba08ae7a65eaf4566ca94ed58d6d37c8e779e4959162acd3c25c2406490a3a32e0db0b5ede14b8ee4688902a22dc4f816073195d643d7ea7c41744975fec130ccdd2f3ff1021dab6bcf5389d928f40a351a89f3c507f02f94585334d43fbaaefd0cf584c4a39becb6a5bb1fc20ed00d153842fe329b3d63b52a05a6e1b1a2c830975b227ebe28012079a059618c323c7041531d871f1e5a534ccf73f362693fdb7c072a49cafa2d4adf04759fa7dc982ca76abd7fe2b670130c56f6bf27b777c63

/-- S-box lookup. -/
def sboxAt (x : Nat) : Nat := (packedSbox >>> (8 * x)) &&& 255

/-- Inverse of the S-box affine transformation (used only to characterize
the table: composing it with the S-box must give the GF(2^8) inverse). -/
def invAffine (s : Nat) : Nat :=
  rotl8 s ^^^ rotl8 (rotl8 (rotl8 s)) ^^^
    rotl8 (rotl8 (rotl8 (rotl8 (rotl8 (rotl8 s))))) ^^^ 0x05

/-- Four bytes to a 32-bit word, big-endian. -/
def word4 (b0 b1 b2 b3 : Nat) : Nat := ((b0 * 256 + b1) * 256 + b2) * 256 + b3

/-- A 32-bit word to four bytes, big-endian. -/
def wordBytes (w : Nat) : List Nat := [w / 2^24 % 256, w / 2^16 % 256, w / 2^8 % 256, w % 256]

/-- FIPS-197 `SubWord`. -/
def subWord (w : Nat) : Nat :=
  ((sboxAt (w / 2^24 % 256) * 256 + sboxAt (w / 2^16 % 256)) * 256 +
    sboxAt (w / 2^8 % 256)) * 256 + sboxAt (w % 256)

/-- FIPS-197 `RotWord`. -/
def rotWord (w : Nat) : Nat := (w % 2^24) * 256 + w / 2^24

/-- FIPS-197 round constant `Rcon[i] = x^(i-1) · 2^24`. -/
def rcon (i : Nat) : Nat := xtimePow (i - 1) 1 * 2^24

/-- The first eight key-schedule words of an AES-256 key. -/
def keyWords0 (key : List Nat) : List Nat :=
  (List.range 8).map (fun i =>
    word4 (key.getD (4*i) 0) (key.getD (4*i+1) 0) (key.getD (4*i+2) 0) (key.getD (4*i+3) 0))

/-- One step of the AES-256 key expansion (appends word `i = ws.length`). -/
def expandStep (ws : List Nat) : List Nat :=
  let i := ws.length
  let prev := ws.getD (i-1) 0
  let temp :=
    if i % 8 == 0 then subWord (rotWord prev) ^^^ rcon (i / 8)
    else if i % 8 == 4 then subWord prev
    else prev
  ws ++ [ws.getD (i-8) 0 ^^^ temp]

/-- Iterate a list transformer. -/
def iterN : Nat → (List Nat → List Nat) → List Nat → List Nat
  | 0, _, x => x
  | n + 1, f, x => iterN n f (f x)

/-- The sixty words of the AES-256 key schedule. -/
def allWords (key : List Nat) : List Nat := iterN 52 expandStep (keyWords0 key)

/-- Round key `r` as sixteen bytes in column order. -/
def roundKey (ws : List Nat) (r : Nat) : List Nat :=
  wordBytes (ws.getD (4*r) 0) ++ wordBytes (ws.getD (4*r+1) 0) ++
    wordBytes (ws.getD (4*r+2) 0) ++ wordBytes (ws.getD (4*r+3) 0)

/-- FIPS-197 `SubBytes` on a column-ordered sixteen-byte state. -/
def subBytes (s : List Nat) : List Nat := s.map sboxAt

/-- FIPS-197 `ShiftRows` (state index `4c + r` holds row `r`, column `c`). -/
def shiftRows (s : List Nat) : List Nat :=
  [s.getD 0 0, s.getD 5 0, s.getD 10 0, s.getD 15 0,
   s.getD 4 0, s.getD 9 0, s.getD 14 0, s.getD 3 0,
   s.getD 8 0, s.getD 13 0, s.getD 2 0, s.getD 7 0,
   s.getD 12 0, s.getD 1 0, s.getD 6 0, s.getD 11 0]

/-- FIPS-197 `MixColumns` on one column. -/
def mixCol (a0 a1 a2 a3 : Nat) : List Nat :=
  [xtime a0 ^^^ (xtime a1 ^^^ a1) ^^^ a2 ^^^ a3,
   a0 ^^^ xtime a1 ^^^ (xtime a2 ^^^ a2) ^^^ a3,
   a0 ^^^ a1 ^^^ xtime a2 ^^^ (xtime a3 ^^^ a3),
   (xtime a0 ^^^ a0) ^^^ a1 ^^^ a2 ^^^ xtime a3]

/-- FIPS-197 `MixColumns`. -/
def mixColumns (s : List Nat) : List Nat :=
  match s with
  | [a0,a1,a2,a3,b0,b1,b2,b3,c0,c1,c2,c3,d0,d1,d2,d3] =>
    mixCol a0 a1 a2 a3 ++ mixCol b0 b1 b2 b3 ++ mixCol c0 c1 c2 c3 ++ mixCol d0 d1 d2 d3
  | _ => s

/-- FIPS-197 `AddRoundKey`. -/
def addRoundKey (s k : List Nat) : List Nat := List.zipWith (fun a b => a ^^^ b) s k

/-- One full AES round. -/
def aesRound (k s : List Nat) : List Nat := addRoundKey (mixColumns (shiftRows (subBytes s))) k

/-- The AES-256 block cipher (fourteen rounds; the last omits `MixColumns`).
Matches the FIPS-197 appendix C.3 test vector. -/
def aes256 (key block : List Nat) : List Nat :=
  let ws := allWords key
  let s0 := addRoundKey block (roundKey ws 0)
  let s13 := (List.range 13).foldl (fun s r => aesRound (roundKey ws (r+1)) s) s0
  addRoundKey (shiftRows (subBytes s13)) (roundKey ws 14)

/-! GCM: GF(2^128) and GHASH (NIST SP 800-38D).  Field elements are
polynomials over GF(2) encoded as `Nat`s with bit `i` the coefficient of
`x^i`; the GCM bit convention (first bit of the block is the constant
coefficient) is confined to the byte/polynomial conversions `byteRev`,
`polyOfBytes`, `polyToBytes`. -/

/-- The GHASH reduction polynomial `x^128 + x^7 + x^2 + x + 1`. -/
def gcmPoly : Nat := 2^128 + 0x87

/-- Carry-less (GF(2) polynomial) product of `a` and `b`, using the low `n`
bits of `a`. -/
def pmulUpTo : Nat → Nat → Nat → Nat
  | 0, _, _ => 0
  | n + 1, a, b => pmulUpTo n a b ^^^ (if a.testBit n then b <<< n else 0)

/-- Reduce modulo `gcmPoly`, clearing bits `128 + k - 1` down to `128`. -/
def pmodStepsFrom : Nat → Nat → Nat
  | 0, x => x
  | k + 1, x => pmodStepsFrom k (if x.testBit (128 + k) then x ^^^ (gcmPoly <<< k) else x)

/-- GF(2^128) multiplication (for arguments below `2^128`). -/
def gfMul (a b : Nat) : Nat := pmodStepsFrom 127 (pmulUpTo 128 a b)

/-- Carry-less product by recursion on the first factor (the reference form
of `pmulUpTo`, used to establish the ring laws of `gfMul`). -/
def cmulR (a b : Nat) : Nat :=
  if a = 0 then 0 else (if a % 2 = 1 then b else 0) ^^^ cmulR (a / 2) (2 * b)
termination_by a
decreasing_by exact Nat.div_lt_self (Nat.pos_of_ne_zero (by assumption)) (by omega)

/-- Reverse the bits of one byte (GCM's reflected bit order). -/
def byteRev (b : Nat) : Nat :=
  b % 2 * 128 + b / 2 % 2 * 64 + b / 4 % 2 * 32 + b / 8 % 2 * 16 +
    b / 16 % 2 * 8 + b / 32 % 2 * 4 + b / 64 % 2 * 2 + b / 128 % 2

/-- A block of bytes as a GF(2^128) element, per the GCM bit convention. -/
def polyOfBytes : List Nat → Nat
  | [] => 0
  | b :: rest => byteRev b + 256 * polyOfBytes rest

/-- Inverse of `polyOfBytes` at a given byte width. -/
def polyToBytes : Nat → Nat → List Nat
  | 0, _ => []
  | n + 1, x => byteRev (x % 256) :: polyToBytes n (x / 256)

/-- The GHASH Horner iteration `Y ← (Y ⊕ X_i) · H`. -/
def ghashBlocks (H : Nat) (acc : Nat) : List (List Nat) → Nat
  | [] => acc
  | blk :: rest => ghashBlocks H (gfMul (acc ^^^ polyOfBytes blk) H) rest

/-- Zero-pad a short block to sixteen bytes. -/
def padTo16 (l : List Nat) : List Nat := l ++ List.replicate (16 - l.length) 0

/-- Split a byte string into zero-padded sixteen-byte blocks. -/
def blocksOf (l : List Nat) : List (List Nat) :=
  (List.range ((l.length + 15) / 16)).map (fun i => padTo16 ((l.drop (16 * i)).take 16))

/-- A natural as `n` big-endian bytes. -/
def natToBytesBE : Nat → Nat → List Nat
  | 0, _ => []
  | n + 1, x => natToBytesBE n (x / 256) ++ [x % 256]

/-- Big-endian bytes to a natural. -/
def natOfBytesBE (l : List Nat) : Nat := l.foldl (fun acc b => acc * 256 + b) 0

/-- Pointwise xor of two byte strings. -/
def zipXor (a b : List Nat) : List Nat := List.zipWith (fun x y => x ^^^ y) a b

/-- The GHASH subkey `H = CIPH_K(0^128)`. -/
def gcmH (key : List Nat) : Nat := polyOfBytes (aes256 key (List.replicate 16 0))

/-- The GHASH length block for empty AAD and `ctLen` ciphertext bytes. -/
def lenBlock (ctLen : Nat) : List Nat := natToBytesBE 8 0 ++ natToBytesBE 8 (8 * ctLen)

/-- GCM's pre-counter block `J0`. -/
def gcmJ0 (key iv : List Nat) : List Nat :=
  if iv.length = 12 then iv ++ [0, 0, 0, 1]
  else polyToBytes 16 (ghashBlocks (gcmH key) 0
    (blocksOf iv ++ [natToBytesBE 8 0 ++ natToBytesBE 8 (8 * iv.length)]))

/-- `inc32` applied `i` times to `J`. -/
def inc32By (J : List Nat) (i : Nat) : List Nat :=
  J.take 12 ++ natToBytesBE 4 ((natOfBytesBE (J.drop 12) + i) % 2^32)

/-- The GCTR keystream: `n` encrypted counter blocks starting at `inc32 J0`. -/
def keystream (key J0 : List Nat) (n : Nat) : List Nat :=
  ((List.range n).map (fun i => aes256 key (inc32By J0 (i + 1)))).flatten

/-- GCTR: xor the data with the keystream (GCM encryption and decryption of
the payload are the same operation). -/
def gctr (key iv data : List Nat) : List Nat :=
  zipXor data ((keystream key (gcmJ0 key iv) ((data.length + 15) / 16)).take data.length)

/-- `GHASH_H` over the padded ciphertext and length block (empty AAD). -/
def gcmS (key ct : List Nat) : List Nat :=
  polyToBytes 16 (ghashBlocks (gcmH key) 0 (blocksOf ct ++ [lenBlock ct.length]))

/-- The (full sixteen-byte) GCM authentication tag. -/
def gcmTag (key iv ct : List Nat) : List Nat :=
  zipXor (gcmS key ct) (aes256 key (gcmJ0 key iv))

/-- Errors raised by Node's decipher: wrong key size for `aes-256-gcm`, empty
initialization vector, a GCM auth-tag length outside the lengths Node
accepts, and `final()`'s "unable to authenticate data" failure.
`formatError` is the envelope-too-short error of the specification's
taxonomy; modelled from the spec — the code never produces it. -/
inductive CryptoErr where
  | invalidKeyLength
  | invalidIV
  | invalidAuthTagLength
  | authFailed
  | formatError
deriving DecidableEq, Repr

/-- The GCM auth-tag byte lengths `setAuthTag` accepts when no
`authTagLength` option was given. -/
def gcmTagLengths : List Nat := [4, 8, 12, 13, 14, 15, 16]

/-- `decrypt` (src/decrypt.js:13-18): `createDecipheriv("aes-256-gcm", key,
iv)`, `setAuthTag(tag)`, `update(encryptedData)`, `final()`.  The provided
tag is compared against the recomputed tag truncated to its length; on
mismatch `final()` throws. -/
def decrypt (iv key encryptedData tag : List Nat) : Except CryptoErr (List Nat) :=
  if key.length ≠ 32 then .error .invalidKeyLength
  else if iv.length = 0 then .error .invalidIV
  else if tag.length ∉ gcmTagLengths then .error .invalidAuthTagLength
  else if (gcmTag key iv encryptedData).take tag.length = tag then
    .ok (gctr key iv encryptedData)
  else .error .authFailed

/-- Node `Buffer.prototype.slice(start, end)`: negative indices count from
the end, indices are clamped, and a crossed range is empty. -/
def bufSlice (l : List Nat) (s e : Int) : List Nat :=
  let len : Int := l.length
  let s' := (if s < 0 then max 0 (len + s) else min s len).toNat
  let e' := (if e < 0 then max 0 (len + e) else min e len).toNat
  (l.take e').drop s'

/-- The standard base64 alphabet. -/
def b64Alphabet : List Char :=
  "ABCDEFGHIJKLMNOPQRSTUVWXYZabcdefghijklmnopqrstuvwxyz0123456789+/".data

/-- The base64 digit for a 6-bit value. -/
def b64Char (v : Nat) : Char := b64Alphabet.getD v 'A'

/-- The 6-bit value of a base64 digit. -/
def b64Val (c : Char) : Nat := b64Alphabet.indexOf c

/-- Base64-encode a byte string (unpadded). -/
def b64encode : List Nat → List Char
  | a :: b :: c :: rest =>
    let n := (a * 256 + b) * 256 + c
    b64Char (n / 2^18) :: b64Char (n / 2^12 % 64) :: b64Char (n / 2^6 % 64) ::
      b64Char (n % 64) :: b64encode rest
  | [a, b] =>
    let n := a * 256 + b
    [b64Char (n / 2^10), b64Char (n / 2^4 % 64), b64Char (n % 16 * 4)]
  | [a] => [b64Char (a / 4), b64Char (a % 4 * 16)]
  | [] => []

/-- Decode a base64 digit string (already filtered to alphabet digits). -/
def b64decodeQuads : List Char → List Nat
  | c0 :: c1 :: c2 :: c3 :: rest =>
    let n := ((b64Val c0 * 64 + b64Val c1) * 64 + b64Val c2) * 64 + b64Val c3
    n / 2^16 % 256 :: n / 2^8 % 256 :: n % 256 :: b64decodeQuads rest
  | [c0, c1, c2] =>
    let n := (b64Val c0 * 64 + b64Val c1) * 64 + b64Val c2
    [n / 2^10 % 256, n / 2^2 % 256]
  | [c0, c1] =>
    let n := b64Val c0 * 64 + b64Val c1
    [n / 2^4 % 256]
  | _ => []

/-- `Buffer.from(s, "base64")`: non-alphabet characters (including the `=`
padding) are ignored, then digits are decoded in groups of four. -/
def b64decode (s : List Char) : List Nat :=
  b64decodeQuads (s.filter (fun c => c ∈ b64Alphabet))

/-- A catalog entry as read by `decrypt.js`: only its base64
`decryption_key` field. -/
structure CatalogItem where
  decryption_key : String

/-- `getDecryptionKey` (src/decrypt.js:30-37): base64-decode the envelope,
split off `iv = data.slice(0, 12)`, `encryptedData = data.slice(12, -16)`,
`tag = data.slice(-16)`, and decrypt. -/
def getDecryptionKey (unlockKey : List Nat) (item : CatalogItem) : Except CryptoErr (List Nat) :=
  let decryptionKeyData := b64decode item.decryption_key.data
  let iv := bufSlice decryptionKeyData 0 12
  let encryptedData := bufSlice decryptionKeyData 12 (-16)
  let tag := bufSlice decryptionKeyData (-16) decryptionKeyData.length
  decrypt iv unlockKey encryptedData tag

/-- `getGameDecryptionKey` (src/decrypt.js:46-48). -/
def getGameDecryptionKey (unlockKey : List Nat) (game : CatalogItem) : Except CryptoErr (List Nat) :=
  getDecryptionKey unlockKey game

/-- `getFirmwareDecryptionKey` (src/decrypt.js:57-59). -/
def getFirmwareDecryptionKey (unlockKey : List Nat) (update : CatalogItem) :
    Except CryptoErr (List Nat) :=
  getDecryptionKey unlockKey update

/-- AES-256-GCM authenticated encryption with empty AAD (the operation the
specification's round-trip and tamper properties quantify over): the
ciphertext and the sixteen-byte tag. -/
def aes256gcmEncrypt (key iv pt : List Nat) : List Nat × List Nat :=
  (gctr key iv pt, gcmTag key iv (gctr key iv pt))

/-- The all-zero 32-byte unlock key (concrete witness input). -/
def zKey : List Nat := List.replicate 32 0

/-- A catalog item whose base64 `decryption_key` decodes to twenty zero
bytes — a syntactically well-formed but too-short envelope. -/
def shortEnvItem : CatalogItem := ⟨"AAAAAAAAAAAAAAAAAAAAAAAAAAA"⟩

/-- The all-zero 12-byte IV (concrete witness input). -/
def zIV : List Nat := List.replicate 12 0

/-! ## Lemmas about serial validation -/

/-- Both failure paths of `_validateSerial` throw the same error. -/
theorem validateSerial_fail {s : String} (h : validateSerial s ≠ .ok ()) :
    validateSerial s = .error (.jsError ("Invalid serial number: " ++ s)) := by
  by_cases h1 : s.length ≠ 12
  · simp [validateSerial, h1]
  · by_cases h2 : serialRegexTest s
    · exact absurd (by simp [validateSerial, h1, h2]) h
    · simp [validateSerial, h1, h2]

/-- `_validateSerial` accepts exactly the strings of the specified shape. -/
theorem validateSerial_ok_iff (t : String) : validateSerial t = .ok () ↔ SerialShape t := by
  constructor
  · intro h
    by_cases h1 : t.length ≠ 12
    · simp [validateSerial, h1] at h
    · by_cases h2 : serialRegexTest t = true
      · unfold serialRegexTest at h2
        split at h2
        · rename_i rest heq
          rw [Bool.and_eq_true, beq_iff_eq, List.all_eq_true] at h2
          exact ⟨rest, h2.1, h2.2, heq⟩
        · exact absurd h2 (by simp)
      · simp [validateSerial, h1, h2] at h
  · rintro ⟨d, hd6, hdig, hdata⟩
    have hlen : t.length = 12 := by
      have h12 : t.length = t.data.length := rfl
      rw [h12, hdata]
      simp [hd6]
    have hre : serialRegexTest t = true := by
      unfold serialRegexTest
      rw [hdata]
      simp [hd6, List.all_eq_true]
      exact hdig
    simp [validateSerial, hlen, hre]

/-- `_getMiddlewareToken` always issues exactly its one GET request. -/
theorem getMiddlewareToken_events (net : Net) (url : String) :
    (getMiddlewareToken net url).2 = [.get url] := by
  unfold getMiddlewareToken
  dsimp only
  split
  · rfl
  · split <;> rfl

/-- When the login gate and serial validation pass, the trace of
`removeDevice` begins with the GET of the device-removal page. -/
theorem removeDevice_attempted (net : Net) (st : ClientState) (s : String)
    (hlog : truthyStr st.loginToken = true) (hser : validateSerial s = .ok ()) :
    (removeDevice net st s).2.head? =
      some (.get (baseWebURL ++ "/devices/" ++ s ++ "/remove/")) := by
  unfold removeDevice
  rcases hgm : getMiddlewareToken net (baseWebURL ++ "/devices/" ++ s ++ "/remove/")
    with ⟨res, evs⟩
  have hev : evs = [NetEv.get (baseWebURL ++ "/devices/" ++ s ++ "/remove/")] := by
    have h2 := getMiddlewareToken_events net (baseWebURL ++ "/devices/" ++ s ++ "/remove/")
    rw [hgm] at h2
    exact h2
  simp only [hlog, hser, Bool.not_true, Bool.false_eq_true, if_false]
  rw [hgm]
  cases res
  · dsimp only
    simp [hev]
  · dsimp only
    split <;> simp [hev]

/-! ## Claim theorems about the registration state machine -/

/-- C1: because `getDevicePin` evaluates the unbound identifier `digit`,
no run of `registerDevice` — over every network oracle, client state and
input serial — completes without error, so the code can never reach the
credential-commit step the specification describes for successful runs. -/
theorem registerDevice_never_succeeds (net : Net) (st : ClientState) (serialNumber : String) :
    isOkB (registerDevice net st serialNumber).1 = false := by
  unfold registerDevice
  split
  · rfl
  · split
    · rfl
    · rename_i hv
      simp [getDevicePin, hv, isOkB]

/-- C2: for every client state and every serial that passes validation,
`getDevicePin` raises the ReferenceError for the unbound identifier `digit`
before issuing any network request, leaving `this.idempotencyKey` (and all
other client state) unchanged. -/
theorem getDevicePin_unbound_digit (net : Net) (st : ClientState) (serialNumber : String)
    (h : validateSerial serialNumber = .ok ()) :
    getDevicePin net st serialNumber = (.error .referenceErrorDigit, st, []) := by
  simp [getDevicePin, h]

theorem getDevicePin_unbound_digit_witness :
    validateSerial "PDU1-Y123456" = .ok () ∧
    getDevicePin net0 st0 "PDU1-Y123456" = (.error .referenceErrorDigit, st0, []) :=
  ⟨by decide, getDevicePin_unbound_digit net0 st0 "PDU1-Y123456" (by decide)⟩

/-- C4 counterexample: on a page with no `csrfmiddlewaretoken` input element
the token fetch fails with the generic null-dereference TypeError, which is
not the distinct `PageNotFoundError` value the claim names. -/
theorem getMiddlewareToken_not_pageNotFound :
    (getMiddlewareToken noCsrfNet (baseWebURL ++ "/signin/")).1 = .error .typeErrorNullRead ∧
    JsErr.typeErrorNullRead ≠ JsErr.pageNotFound :=
  ⟨rfl, by decide⟩

/-- C4 (amended): if the fetched page loads but contains no input element
named `csrfmiddlewaretoken`, `_getMiddlewareToken` fails — with the TypeError
raised by calling `getAttribute` on the `null` result of `querySelector`, not
with a distinct `PageNotFoundError` — after its single GET request. -/
theorem getMiddlewareToken_missing_input (net : Net) (url : String)
    (hok : (net.page url).ok = true) (habs : (net.page url).csrf = none) :
    getMiddlewareToken net url = (.error .typeErrorNullRead, [.get url]) := by
  simp [getMiddlewareToken, hok, habs]

theorem getMiddlewareToken_missing_input_witness :
    (noCsrfNet.page "https://play.date/pin/").ok = true ∧
    (noCsrfNet.page "https://play.date/pin/").csrf = none ∧
    getMiddlewareToken noCsrfNet "https://play.date/pin/" =
      (.error .typeErrorNullRead, [.get "https://play.date/pin/"]) :=
  ⟨rfl, rfl, getMiddlewareToken_missing_input noCsrfNet "https://play.date/pin/" rfl rfl⟩

/-- C7: every failing run of `registerDevice` leaves the whole client state —
in particular `this.token`, `this.loginToken` and the Authorization header —
exactly as it was at entry; the new token is committed only after the
completion fetch succeeds. -/
theorem registerDevice_failed_preserves_credentials (net : Net) (st : ClientState)
    (serialNumber : String) (h : isOkB (registerDevice net st serialNumber).1 = false) :
    (registerDevice net st serialNumber).2.1 = st := by
  unfold registerDevice
  split
  · rfl
  · split
    · rfl
    · rename_i hv
      simp [getDevicePin, hv]

theorem registerDevice_failed_preserves_credentials_witness :
    isOkB (registerDevice net0 st0 "PDU1-Y123456").1 = false ∧
    (registerDevice net0 st0 "PDU1-Y123456").2.1 = st0 :=
  ⟨by decide,
   registerDevice_failed_preserves_credentials net0 st0 "PDU1-Y123456" (by decide)⟩

/-- C9: a client that has not logged in cannot start `registerDevice` (the
"You must be logged in" error is thrown with zero network requests), and a
client with no stored idempotency key cannot call `getDeviceAccessToken`
(the "must first add a device" error is thrown with zero network requests). -/
theorem registration_preconditions (net : Net) (st st' : ClientState) (s s' : String)
    (hlogin : truthyStr st.loginToken = false)
    (hidem : truthyStr st'.idempotencyKey = false) :
    registerDevice net st s =
      (.error (.jsError "You must be logged in register a device"), st, []) ∧
    getDeviceAccessToken net st' s' =
      (.error (.jsError "You must first add a device before this can be called."), st', []) := by
  constructor
  · simp [registerDevice, hlogin]
  · simp [getDeviceAccessToken, hidem]

theorem registration_preconditions_witness :
    truthyStr stOut.loginToken = false ∧
    truthyStr stOut.idempotencyKey = false ∧
    (registerDevice net0 stOut "PDU1-Y123456" =
      (.error (.jsError "You must be logged in register a device"), stOut, []) ∧
    getDeviceAccessToken net0 stOut "PDU1-Y123456" =
      (.error (.jsError "You must first add a device before this can be called."), stOut, [])) :=
  ⟨rfl, rfl, registration_preconditions net0 stOut stOut "PDU1-Y123456" "PDU1-Y123456" rfl rfl⟩

/-- C8: serial validation accepts exactly `PDU1-Y` + six digits, and for a
string failing validation every serial-taking operation fails with zero
network requests; whenever the operation's earlier precondition (login gate
or pending idempotency key) is satisfied, the error is exactly the
`Invalid serial number` error. -/
theorem invalid_serial_never_reaches_network (net : Net) (st : ClientState) (s : String)
    (hbad : validateSerial s ≠ .ok ()) :
    (∀ t : String, validateSerial t = .ok () ↔ SerialShape t) ∧
    getDevicePin net st s = (.error (.jsError ("Invalid serial number: " ++ s)), st, []) ∧
    (removeDevice net st s).2 = [] ∧ isOkB (removeDevice net st s).1 = false ∧
    (truthyStr st.loginToken = true →
      (removeDevice net st s).1 = .error (.jsError ("Invalid serial number: " ++ s))) ∧
    (registerDevice net st s).2.2 = [] ∧ isOkB (registerDevice net st s).1 = false ∧
    (truthyStr st.loginToken = true →
      (registerDevice net st s).1 = .error (.jsError ("Invalid serial number: " ++ s))) ∧
    (getDeviceAccessToken net st s).2.2 = [] ∧
    isOkB (getDeviceAccessToken net st s).1 = false ∧
    (truthyStr st.idempotencyKey = true →
      (getDeviceAccessToken net st s).1 = .error (.jsError ("Invalid serial number: " ++ s))) := by
  have hv := validateSerial_fail hbad
  refine ⟨validateSerial_ok_iff, ?_, ?_, ?_, ?_, ?_, ?_, ?_, ?_, ?_, ?_⟩
  · simp [getDevicePin, hv]
  · unfold removeDevice
    split
    · rfl
    · simp [hv]
  · unfold removeDevice
    split
    · rfl
    · simp [hv, isOkB]
  · intro hlog
    simp [removeDevice, hlog, hv]
  · unfold registerDevice
    split
    · rfl
    · simp [hv]
  · unfold registerDevice
    split
    · rfl
    · simp [hv, isOkB]
  · intro hlog
    simp [registerDevice, hlog, hv]
  · unfold getDeviceAccessToken
    split
    · rfl
    · simp [hv]
  · unfold getDeviceAccessToken
    split
    · rfl
    · simp [hv, isOkB]
  · intro hidem
    simp [getDeviceAccessToken, hidem, hv]

theorem invalid_serial_never_reaches_network_witness :
    validateSerial "PDU1-X123456" ≠ .ok () ∧
    getDevicePin net0 st0 "PDU1-X123456" =
      (.error (.jsError ("Invalid serial number: " ++ "PDU1-X123456")), st0, []) :=
  ⟨by decide,
   (invalid_serial_never_reaches_network net0 st0 "PDU1-X123456" (by decide)).2.1⟩

/-- C10: with the login gate and serial validation passed, the network trace
of `registerDevice` is exactly the trace of the best-effort `removeDevice`
step — which is always attempted, beginning with the GET of the device
removal page — and the error that surfaces is the PIN-request step's
ReferenceError, never `removeDevice`'s error, whatever the deregistration
outcome was.  (The add-device and completion steps are unreachable because
the PIN step always faults first, so their failures cannot be observed.) -/
theorem registerDevice_swallows_only_deregistration (net : Net) (st : ClientState) (s : String)
    (hlog : truthyStr st.loginToken = true) (hser : validateSerial s = .ok ()) :
    (registerDevice net st s).1 = .error .referenceErrorDigit ∧
    (registerDevice net st s).2.2 = (removeDevice net st s).2 ∧
    (removeDevice net st s).2.head? =
      some (.get (baseWebURL ++ "/devices/" ++ s ++ "/remove/")) := by
  refine ⟨?_, ?_, ?_⟩
  · simp [registerDevice, hlog, hser, getDevicePin]
  · simp [registerDevice, hlog, hser, getDevicePin]
  · exact removeDevice_attempted net st s hlog hser

/-! ## Byte-range and length lemmas for the cipher model -/

theorem xorByte_lt {x y : Nat} (hx : x < 256) (hy : y < 256) : x ^^^ y < 256 :=
  Nat.xor_lt_two_pow (n := 8) hx hy

theorem allBytes_getD {l : List Nat} (h : allBytes l) (i : Nat) : l.getD i 0 < 256 := by
  rcases Nat.lt_or_ge i l.length with hi | hi
  · rw [List.getD_eq_getElem?_getD, List.getElem?_eq_getElem hi]
    exact h _ (List.getElem_mem hi)
  · rw [List.getD_eq_getElem?_getD, List.getElem?_eq_none hi]
    norm_num

theorem allBytes_append {a b : List Nat} (ha : allBytes a) (hb : allBytes b) :
    allBytes (a ++ b) := by
  intro x hx
  rcases List.mem_append.mp hx with h | h
  · exact ha x h
  · exact hb x h

theorem allBytes_take {l : List Nat} (n : Nat) (h : allBytes l) : allBytes (l.take n) :=
  fun x hx => h x (List.mem_of_mem_take hx)

theorem allBytes_drop {l : List Nat} (n : Nat) (h : allBytes l) : allBytes (l.drop n) :=
  fun x hx => h x (List.mem_of_mem_drop hx)

theorem allBytes_replicate (n v : Nat) (hv : v < 256) : allBytes (List.replicate n v) := by
  intro x hx
  rw [List.eq_of_mem_replicate hx]
  exact hv

theorem allBytes_set {l : List Nat} (h : allBytes l) {i b : Nat} (hb : b < 256) :
    allBytes (l.set i b) := by
  intro x hx
  rcases List.mem_or_eq_of_mem_set hx with h1 | rfl
  · exact h x h1
  · exact hb

theorem allBytes_zipXor {a : List Nat} : ∀ {b : List Nat},
    allBytes a → allBytes b → allBytes (zipXor a b) := by
  induction a with
  | nil => intro b _ _ x hx; simp [zipXor] at hx
  | cons h t ih =>
    intro b ha hb x hx
    cases b with
    | nil => simp [zipXor] at hx
    | cons bh bt =>
      simp only [zipXor, List.zipWith_cons_cons, List.mem_cons] at hx
      rcases hx with rfl | hx
      · exact xorByte_lt (ha _ (by simp)) (hb _ (by simp))
      · exact ih (fun y hy => ha y (by simp [hy])) (fun y hy => hb y (by simp [hy])) x hx

theorem length_zipXor (a b : List Nat) : (zipXor a b).length = min a.length b.length := by
  simp [zipXor]

theorem sboxAt_lt (x : Nat) : sboxAt x < 256 := by
  unfold sboxAt
  have h := Nat.and_le_right (n := packedSbox >>> (8 * x)) (m := 255)
  omega

theorem xtime_lt {b : Nat} (h : b < 256) : xtime b < 256 := by
  unfold xtime
  split
  · exact xorByte_lt (by omega) (by norm_num)
  · omega

theorem allBytes_subBytes (s : List Nat) : allBytes (subBytes s) := by
  intro x hx
  simp only [subBytes, List.mem_map] at hx
  obtain ⟨a, _, rfl⟩ := hx
  exact sboxAt_lt a

theorem allBytes_shiftRows {s : List Nat} (h : allBytes s) : allBytes (shiftRows s) := by
  intro x hx
  simp only [shiftRows, List.mem_cons, List.not_mem_nil, or_false] at hx
  rcases hx with rfl|rfl|rfl|rfl|rfl|rfl|rfl|rfl|rfl|rfl|rfl|rfl|rfl|rfl|rfl|rfl <;>
    exact allBytes_getD h _

theorem allBytes_wordBytes (w : Nat) : allBytes (wordBytes w) := by
  intro x hx
  simp only [wordBytes, List.mem_cons, List.not_mem_nil, or_false] at hx
  rcases hx with rfl|rfl|rfl|rfl <;> exact Nat.mod_lt _ (by norm_num)

theorem allBytes_roundKey (ws : List Nat) (r : Nat) : allBytes (roundKey ws r) := by
  unfold roundKey
  exact allBytes_append (allBytes_append (allBytes_append
    (allBytes_wordBytes _) (allBytes_wordBytes _)) (allBytes_wordBytes _)) (allBytes_wordBytes _)

theorem xor4_lt {u v w z : Nat} (hu : u < 256) (hv : v < 256) (hw : w < 256) (hz : z < 256) :
    u ^^^ v ^^^ w ^^^ z < 256 :=
  xorByte_lt (xorByte_lt (xorByte_lt hu hv) hw) hz

theorem allBytes_mixCol {a0 a1 a2 a3 : Nat} (h0 : a0 < 256) (h1 : a1 < 256)
    (h2 : a2 < 256) (h3 : a3 < 256) : allBytes (mixCol a0 a1 a2 a3) := by
  have t0 := xtime_lt h0
  have t1 := xtime_lt h1
  have t2 := xtime_lt h2
  have t3 := xtime_lt h3
  intro x hx
  simp only [mixCol, List.mem_cons, List.not_mem_nil, or_false] at hx
  rcases hx with rfl|rfl|rfl|rfl
  · exact xor4_lt t0 (xorByte_lt t1 h1) h2 h3
  · exact xor4_lt h0 t1 (xorByte_lt t2 h2) h3
  · exact xor4_lt h0 h1 t2 (xorByte_lt t3 h3)
  · exact xor4_lt (xorByte_lt t0 h0) h1 h2 t3

theorem allBytes_mixColumns {s : List Nat} (h : allBytes s) : allBytes (mixColumns s) := by
  unfold mixColumns
  split
  · refine allBytes_append (allBytes_append (allBytes_append ?_ ?_) ?_) ?_ <;>
      exact allBytes_mixCol (h _ (by simp)) (h _ (by simp)) (h _ (by simp)) (h _ (by simp))
  · exact h

theorem allBytes_addRoundKey {s k : List Nat} (hs : allBytes s) (hk : allBytes k) :
    allBytes (addRoundKey s k) :=
  allBytes_zipXor hs hk

theorem allBytes_aes256 (key block : List Nat) : allBytes (aes256 key block) := by
  unfold aes256
  exact allBytes_addRoundKey (allBytes_shiftRows (allBytes_subBytes _)) (allBytes_roundKey _ _)

theorem length_shiftRows (s : List Nat) : (shiftRows s).length = 16 := rfl

theorem length_roundKey (ws : List Nat) (r : Nat) : (roundKey ws r).length = 16 := rfl

theorem length_addRoundKey (s k : List Nat) :
    (addRoundKey s k).length = min s.length k.length := by
  simp [addRoundKey]

theorem length_aes256 (key block : List Nat) : (aes256 key block).length = 16 := by
  unfold aes256
  rw [length_addRoundKey, length_shiftRows, length_roundKey]
  rfl

theorem byteRev_lt (b : Nat) : byteRev b < 256 := by
  unfold byteRev
  omega

theorem length_polyToBytes (n x : Nat) : (polyToBytes n x).length = n := by
  induction n generalizing x with
  | zero => rfl
  | succ n ih => simp [polyToBytes, ih]

theorem allBytes_polyToBytes (n x : Nat) : allBytes (polyToBytes n x) := by
  induction n generalizing x with
  | zero => intro y hy; simp [polyToBytes] at hy
  | succ n ih =>
    intro y hy
    simp only [polyToBytes, List.mem_cons] at hy
    rcases hy with rfl | hy
    · exact byteRev_lt _
    · exact ih _ y hy

theorem length_natToBytesBE (n x : Nat) : (natToBytesBE n x).length = n := by
  induction n generalizing x with
  | zero => rfl
  | succ n ih => simp [natToBytesBE, ih]

theorem allBytes_natToBytesBE (n x : Nat) : allBytes (natToBytesBE n x) := by
  induction n generalizing x with
  | zero => intro y hy; simp [natToBytesBE] at hy
  | succ n ih =>
    intro y hy
    simp only [natToBytesBE] at hy
    rcases List.mem_append.mp hy with h | h
    · exact ih _ y h
    · rw [List.mem_singleton.mp h]
      exact Nat.mod_lt _ (by norm_num)

theorem length_gcmTag (key iv ct : List Nat) : (gcmTag key iv ct).length = 16 := by
  unfold gcmTag gcmS
  rw [length_zipXor, length_polyToBytes, length_aes256]
  rfl

theorem allBytes_gcmTag (key iv ct : List Nat) : allBytes (gcmTag key iv ct) := by
  unfold gcmTag
  exact allBytes_zipXor (allBytes_polyToBytes _ _) (allBytes_aes256 _ _)

theorem length_keystream (key J0 : List Nat) (n : Nat) :
    (keystream key J0 n).length = 16 * n := by
  unfold keystream
  rw [List.length_flatten]
  induction n with
  | zero => rfl
  | succ n ih =>
    rw [List.range_succ]
    simp only [List.map_append, List.map_cons, List.map_nil, List.sum_append]
    rw [ih]
    simp [length_aes256]
    ring

theorem allBytes_keystream (key J0 : List Nat) (n : Nat) : allBytes (keystream key J0 n) := by
  intro x hx
  unfold keystream at hx
  rw [List.mem_flatten] at hx
  obtain ⟨l, hl, hxl⟩ := hx
  rw [List.mem_map] at hl
  obtain ⟨i, _, rfl⟩ := hl
  exact allBytes_aes256 _ _ x hxl

theorem length_gctr (key iv data : List Nat) : (gctr key iv data).length = data.length := by
  unfold gctr
  rw [length_zipXor, List.length_take, length_keystream]
  omega

theorem allBytes_gctr {key iv data : List Nat} (hd : allBytes data) :
    allBytes (gctr key iv data) := by
  unfold gctr
  exact allBytes_zipXor hd (allBytes_take _ (allBytes_keystream _ _ _))

/-! ## `Buffer.slice` in the three forms `getDecryptionKey` uses -/

theorem bufSlice_iv (l : List Nat) : bufSlice l 0 12 = l.take 12 := by
  unfold bufSlice
  dsimp only
  have h0 : ((if (0:Int) < 0 then max 0 ((l.length:Int) + 0) else min 0 (l.length:Int)).toNat) = 0 := by
    rw [if_neg (by omega)]
    omega
  have h1 : ((if (12:Int) < 0 then max 0 ((l.length:Int) + 12) else min 12 (l.length:Int)).toNat) =
      min 12 l.length := by
    rw [if_neg (by omega)]
    omega
  rw [h0, h1, List.drop_zero]
  rcases le_or_lt 12 l.length with h | h
  · rw [Nat.min_eq_left h]
  · rw [Nat.min_eq_right (Nat.le_of_lt h), List.take_length,
      List.take_of_length_le (Nat.le_of_lt h)]

theorem bufSlice_ct (l : List Nat) : bufSlice l 12 (-16) = (l.take (l.length - 16)).drop 12 := by
  unfold bufSlice
  dsimp only
  have h0 : ((if (12:Int) < 0 then max 0 ((l.length:Int) + 12) else min 12 (l.length:Int)).toNat) =
      min 12 l.length := by
    rw [if_neg (by omega)]
    omega
  have h1 : ((if (-16:Int) < 0 then max 0 ((l.length:Int) + -16) else min (-16) (l.length:Int)).toNat) =
      l.length - 16 := by
    rw [if_pos (by omega)]
    omega
  rw [h0, h1]
  rcases le_or_lt 12 l.length with h | h
  · rw [Nat.min_eq_left h]
  · rw [Nat.min_eq_right (Nat.le_of_lt h)]
    have hlen : (l.take (l.length - 16)).length ≤ l.length := by
      rw [List.length_take]
      omega
    rw [List.drop_eq_nil_of_le (by omega), List.drop_eq_nil_of_le (by rw [List.length_take]; omega)]

theorem bufSlice_tag (l : List Nat) : bufSlice l (-16) l.length = l.drop (l.length - 16) := by
  unfold bufSlice
  dsimp only
  have h0 : ((if (-16:Int) < 0 then max 0 ((l.length:Int) + -16) else min (-16) (l.length:Int)).toNat) =
      l.length - 16 := by
    rw [if_pos (by omega)]
    omega
  have h1 : ((if (l.length:Int) < 0 then max 0 ((l.length:Int) + l.length) else
      min (l.length:Int) (l.length:Int)).toNat) = l.length := by
    rw [if_neg (by omega)]
    omega
  rw [h0, h1, List.take_length]

/-! ## Base64 round-trip -/

theorem b64Val_b64Char : ∀ v < 64, b64Val (b64Char v) = v := by decide

theorem b64Char_mem : ∀ v < 64, b64Char v ∈ b64Alphabet := by decide

theorem b64encode_mem_alphabet :
    ∀ (l : List Nat), allBytes l → ∀ c ∈ b64encode l, c ∈ b64Alphabet
  | a :: b :: cc :: rest, h, c, hc => by
    have ha : a < 256 := h a (by simp)
    have hb : b < 256 := h b (by simp)
    have hcc : cc < 256 := h cc (by simp)
    simp only [b64encode, List.mem_cons] at hc
    rcases hc with rfl | rfl | rfl | rfl | hc
    · exact b64Char_mem _ (by omega)
    · exact b64Char_mem _ (by omega)
    · exact b64Char_mem _ (by omega)
    · exact b64Char_mem _ (by omega)
    · exact b64encode_mem_alphabet rest (fun y hy => h y (by simp [hy])) c hc
  | [a, b], h, c, hc => by
    have ha : a < 256 := h a (by simp)
    have hb : b < 256 := h b (by simp)
    simp only [b64encode, List.mem_cons, List.not_mem_nil, or_false] at hc
    rcases hc with rfl | rfl | rfl <;> exact b64Char_mem _ (by omega)
  | [a], h, c, hc => by
    have ha : a < 256 := h a (by simp)
    simp only [b64encode, List.mem_cons, List.not_mem_nil, or_false] at hc
    rcases hc with rfl | rfl <;> exact b64Char_mem _ (by omega)
  | [], _, c, hc => by simp [b64encode] at hc

theorem b64decodeQuads_encode : ∀ (l : List Nat), allBytes l → b64decodeQuads (b64encode l) = l
  | a :: b :: cc :: rest, h => by
    have ha : a < 256 := h a (by simp)
    have hb : b < 256 := h b (by simp)
    have hcc : cc < 256 := h cc (by simp)
    have htail := b64decodeQuads_encode rest (fun y hy => h y (by simp [hy]))
    simp only [b64encode, b64decodeQuads]
    rw [b64Val_b64Char _ (by omega), b64Val_b64Char _ (by omega),
      b64Val_b64Char _ (by omega), b64Val_b64Char _ (by omega), htail]
    simp only [List.cons.injEq]
    exact ⟨by omega, by omega, by omega, trivial⟩
  | [a, b], h => by
    have ha : a < 256 := h a (by simp)
    have hb : b < 256 := h b (by simp)
    simp only [b64encode, b64decodeQuads]
    rw [b64Val_b64Char _ (by omega), b64Val_b64Char _ (by omega), b64Val_b64Char _ (by omega)]
    simp only [List.cons.injEq]
    exact ⟨by omega, by omega, trivial⟩
  | [a], h => by
    have ha : a < 256 := h a (by simp)
    simp only [b64encode, b64decodeQuads]
    rw [b64Val_b64Char _ (by omega), b64Val_b64Char _ (by omega)]
    simp only [List.cons.injEq]
    exact ⟨by omega, trivial⟩
  | [], _ => rfl

theorem b64_roundtrip {l : List Nat} (h : allBytes l) : b64decode (b64encode l) = l := by
  unfold b64decode
  rw [List.filter_eq_self.mpr]
  · exact b64decodeQuads_encode l h
  · intro c hc
    simpa using b64encode_mem_alphabet l h c hc

/-! ## C3: short envelopes -/

set_option maxHeartbeats 4000000 in
/-- C3 counterexample: a 20-byte (shorter than 28) decoded envelope makes
`getDecryptionKey` fail with the GCM authentication error, not with the
`FormatError` the claim names (no length check exists in the code). -/
theorem getDecryptionKey_short_not_formatError :
    (b64decode shortEnvItem.decryption_key.data).length = 20 ∧
    getDecryptionKey zKey shortEnvItem = .error .authFailed ∧
    CryptoErr.authFailed ≠ CryptoErr.formatError := by
  refine ⟨by decide, by decide, by decide⟩

/-- C3 (amended): for a 32-byte unlock key and an envelope whose decoded
length is below 28, the unwrap fails with the invalid-IV error, the
invalid-auth-tag-length error, or the authentication-failure error — never
with a `FormatError`, which the code does not implement — and the only value
it could ever return is the empty key (the sliced ciphertext is empty); the
aliases `getGameDecryptionKey` and `getFirmwareDecryptionKey` behave
identically. -/
theorem getDecryptionKey_short_envelope (unlockKey : List Nat) (item : CatalogItem)
    (hk : unlockKey.length = 32)
    (hshort : (b64decode item.decryption_key.data).length < 28) :
    (∀ e, getDecryptionKey unlockKey item = .error e →
      (e = .invalidIV ∨ e = .invalidAuthTagLength ∨ e = .authFailed)) ∧
    (∀ k, getDecryptionKey unlockKey item = .ok k → k = []) ∧
    getGameDecryptionKey unlockKey item = getDecryptionKey unlockKey item ∧
    getFirmwareDecryptionKey unlockKey item = getDecryptionKey unlockKey item := by
  have hres : ∀ r, getDecryptionKey unlockKey item = r →
      (r = .error .invalidIV ∨ r = .error .invalidAuthTagLength ∨ r = .error .authFailed ∨
        r = .ok []) := by
    intro r hr
    unfold getDecryptionKey at hr
    simp only [bufSlice_iv, bufSlice_ct, bufSlice_tag] at hr
    set d := b64decode item.decryption_key.data with hd
    have hed : (d.take (d.length - 16)).drop 12 = [] := by
      apply List.drop_eq_nil_of_le
      rw [List.length_take]
      omega
    rw [hed] at hr
    unfold decrypt at hr
    rw [if_neg (by omega)] at hr
    by_cases hiv : (d.take 12).length = 0
    · rw [if_pos hiv] at hr
      exact Or.inl hr.symm
    · rw [if_neg hiv] at hr
      by_cases htl : (d.drop (d.length - 16)).length ∈ gcmTagLengths
      · rw [if_neg (by simpa using htl)] at hr
        by_cases hcmp : (gcmTag unlockKey (d.take 12) []).take (d.drop (d.length - 16)).length =
            d.drop (d.length - 16)
        · rw [if_pos hcmp] at hr
          refine Or.inr (Or.inr (Or.inr ?_))
          rw [← hr]
          simp [gctr, zipXor]
        · rw [if_neg hcmp] at hr
          exact Or.inr (Or.inr (Or.inl hr.symm))
      · rw [if_pos (by simpa using htl)] at hr
        exact Or.inr (Or.inl hr.symm)
  refine ⟨?_, ?_, rfl, rfl⟩
  · intro e he
    rcases hres _ he with h | h | h | h <;> simp_all
  · intro k hk2
    rcases hres _ hk2 with h | h | h | h <;> simp_all

set_option maxHeartbeats 4000000 in
theorem getDecryptionKey_short_envelope_witness :
    zKey.length = 32 ∧ (b64decode shortEnvItem.decryption_key.data).length < 28 ∧
    (CryptoErr.authFailed = .invalidIV ∨ CryptoErr.authFailed = .invalidAuthTagLength ∨
      CryptoErr.authFailed = .authFailed) :=
  ⟨by decide, by decide,
   (getDecryptionKey_short_envelope zKey shortEnvItem (by decide) (by decide)).1
     .authFailed (by decide)⟩

/-! ## C6: GCM round-trip -/

theorem zipXor_cancel : ∀ (a b : List Nat), a.length ≤ b.length → zipXor (zipXor a b) b = a := by
  intro a
  induction a with
  | nil => intro b _; rfl
  | cons x t ih =>
    intro b hb
    cases b with
    | nil => simp at hb
    | cons y bt =>
      simp only [zipXor, List.zipWith_cons_cons]
      rw [Nat.xor_cancel_right]
      have := ih bt (by simpa using hb)
      simp only [zipXor] at this
      rw [this]

theorem gctr_eq (key iv data : List Nat) : gctr key iv data =
    zipXor data ((keystream key (gcmJ0 key iv) ((data.length + 15) / 16)).take data.length) := rfl

theorem length_take_keystream (key J0 : List Nat) (L : Nat) :
    ((keystream key J0 ((L + 15) / 16)).take L).length = L := by
  rw [List.length_take, length_keystream]
  omega

theorem gctr_gctr (key iv data : List Nat) : gctr key iv (gctr key iv data) = data := by
  have h1 := length_gctr key iv data
  rw [gctr_eq key iv (gctr key iv data), h1, gctr_eq key iv data]
  apply zipXor_cancel
  rw [length_take_keystream]

theorem envelope_take12 {iv rest : List Nat} (hiv : iv.length = 12) :
    (iv ++ rest).take 12 = iv :=
  List.take_left' hiv

theorem envelope_ct {iv ct tg : List Nat} (hiv : iv.length = 12) (htg : tg.length = 16) :
    (((iv ++ (ct ++ tg)).take ((iv ++ (ct ++ tg)).length - 16)).drop 12) = ct := by
  have hlen : (iv ++ (ct ++ tg)).length - 16 = 12 + ct.length := by
    simp [hiv, htg]
    omega
  rw [hlen, ← List.append_assoc,
    List.take_left' (by simp [hiv]), List.drop_left' hiv]

theorem envelope_tag {iv ct tg : List Nat} (hiv : iv.length = 12) (htg : tg.length = 16) :
    (iv ++ (ct ++ tg)).drop ((iv ++ (ct ++ tg)).length - 16) = tg := by
  have hlen : (iv ++ (ct ++ tg)).length - 16 = 12 + ct.length := by
    simp [hiv, htg]
    omega
  rw [hlen, ← List.append_assoc, List.drop_left' (by simp [hiv])]

/-- C6: wrapping a plaintext with AES-256-GCM (IV ‖ ciphertext ‖ tag,
base64-encoded) and unwrapping with the same 32-byte key returns exactly the
original plaintext bytes. -/
theorem unwrap_roundtrip (key iv pt : List Nat) (hk : key.length = 32)
    (hiv : iv.length = 12) (hivb : allBytes iv) (hptb : allBytes pt) :
    getDecryptionKey key
      { decryption_key :=
          ⟨b64encode (iv ++ (aes256gcmEncrypt key iv pt).1 ++ (aes256gcmEncrypt key iv pt).2)⟩ } =
      .ok pt := by
  have hctb : allBytes (gctr key iv pt) := allBytes_gctr hptb
  have htgb : allBytes (gcmTag key iv (gctr key iv pt)) := allBytes_gcmTag _ _ _
  have htgl : (gcmTag key iv (gctr key iv pt)).length = 16 := length_gcmTag _ _ _
  unfold getDecryptionKey aes256gcmEncrypt
  simp only [bufSlice_iv, bufSlice_ct, bufSlice_tag]
  rw [List.append_assoc]
  rw [b64_roundtrip (allBytes_append hivb (allBytes_append hctb htgb))]
  rw [envelope_take12 hiv, envelope_ct hiv htgl, envelope_tag hiv htgl]
  unfold decrypt
  rw [if_neg (by omega), if_neg (by omega), if_neg (by rw [htgl]; decide),
    if_pos (by rw [htgl, ← htgl, List.take_length]), gctr_gctr]

theorem unwrap_roundtrip_witness :
    zKey.length = 32 ∧ zIV.length = 12 ∧ allBytes zIV ∧
    allBytes [104, 101, 108, 108, 111, 32, 119, 111, 114, 108, 100, 33] ∧
    getDecryptionKey zKey
      { decryption_key :=
          ⟨b64encode (zIV ++
            (aes256gcmEncrypt zKey zIV [104, 101, 108, 108, 111, 32, 119, 111, 114, 108, 100, 33]).1 ++
            (aes256gcmEncrypt zKey zIV [104, 101, 108, 108, 111, 32, 119, 111, 114, 108, 100, 33]).2)⟩ } =
      .ok [104, 101, 108, 108, 111, 32, 119, 111, 114, 108, 100, 33] :=
  ⟨by decide, by decide, by decide, by decide,
   unwrap_roundtrip zKey zIV [104, 101, 108, 108, 111, 32, 119, 111, 114, 108, 100, 33]
     (by decide) (by decide) (by decide) (by decide)⟩

/-! ## GF(2) polynomial arithmetic: ring laws of the carry-less product -/

theorem two_mul_xor (a b : Nat) : 2 * (a ^^^ b) = 2 * a ^^^ 2 * b := by
  apply Nat.eq_of_testBit_eq
  intro i
  cases i with
  | zero => simp [Nat.testBit_zero, Nat.mul_mod_right]
  | succ i =>
    rw [Nat.testBit_xor, Nat.testBit_add_one, Nat.testBit_add_one, Nat.testBit_add_one]
    rw [show 2 * (a ^^^ b) / 2 = a ^^^ b by omega, show 2 * a / 2 = a by omega,
      show 2 * b / 2 = b by omega, Nat.testBit_xor]

theorem xor_two_mul_add {x : Nat} (y : Nat) (hx : x < 2) : x ^^^ 2 * y = 2 * y + x := by
  apply Nat.eq_of_testBit_eq
  intro i
  cases i with
  | zero =>
    simp only [Nat.testBit_zero, Nat.testBit_xor]
    have h1 : (2 * y) % 2 = 0 := by omega
    have h2 : (2 * y + x) % 2 = x % 2 := by omega
    simp [h1, h2]
  | succ i =>
    rw [Nat.testBit_add_one, Nat.testBit_add_one, Nat.xor_div_two,
      show x / 2 = 0 by omega, show 2 * y / 2 = y by omega, Nat.zero_xor,
      show (2 * y + x) / 2 = y by omega]

theorem xor_swap_mid (u x v y : Nat) : (u ^^^ x) ^^^ (v ^^^ y) = (u ^^^ v) ^^^ (x ^^^ y) := by
  apply Nat.eq_of_testBit_eq
  intro i
  simp only [Nat.testBit_xor]
  cases u.testBit i <;> cases x.testBit i <;> cases v.testBit i <;> cases y.testBit i <;> rfl

theorem cmulR_eq (a b : Nat) :
    cmulR a b = if a = 0 then 0 else (if a % 2 = 1 then b else 0) ^^^ cmulR (a / 2) (2 * b) := by
  rw [cmulR]

theorem cmulR_zero_left (b : Nat) : cmulR 0 b = 0 := by
  rw [cmulR_eq]
  simp

theorem cmulR_one_left (b : Nat) : cmulR 1 b = b := by
  rw [cmulR_eq]
  norm_num [cmulR_zero_left]

theorem cmulR_zero_right (a : Nat) : cmulR a 0 = 0 := by
  induction a using Nat.strong_induction_on with
  | _ a ih =>
    rw [cmulR_eq]
    rcases Nat.eq_zero_or_pos a with rfl | ha
    · simp
    · rw [if_neg (by omega), Nat.mul_zero, ih (a / 2) (by omega)]
      simp

theorem cmulR_two_mul_right (a b : Nat) : cmulR a (2 * b) = 2 * cmulR a b := by
  induction a using Nat.strong_induction_on generalizing b with
  | _ a ih =>
    rcases Nat.eq_zero_or_pos a with rfl | ha
    · rw [cmulR_zero_left, cmulR_zero_left]
    · rw [cmulR_eq, if_neg (show ¬(a = 0) by omega), cmulR_eq a b,
        if_neg (show ¬(a = 0) by omega), two_mul_xor, ih (a / 2) (by omega) (2 * b)]
      congr 1
      split <;> simp

theorem cmulR_shift (a b : Nat) : cmulR (2 * a) b = cmulR a (2 * b) := by
  rcases Nat.eq_zero_or_pos a with rfl | ha
  · rw [Nat.mul_zero, cmulR_zero_left, cmulR_zero_left]
  · rw [cmulR_eq]
    rw [if_neg (show ¬(2 * a = 0) by omega), if_neg (show ¬(2 * a % 2 = 1) by omega),
      show 2 * a / 2 = a by omega]
    simp

theorem cmulR_xor_left (a b c : Nat) : cmulR (a ^^^ b) c = cmulR a c ^^^ cmulR b c := by
  induction a using Nat.strong_induction_on generalizing b c with
  | _ a ih =>
    rcases Nat.eq_zero_or_pos a with rfl | ha
    · rw [Nat.zero_xor, cmulR_zero_left, Nat.zero_xor]
    · rcases eq_or_ne a b with rfl | hab
      · rw [Nat.xor_self, cmulR_zero_left, Nat.xor_self]
      · rcases Nat.eq_zero_or_pos b with rfl | hb
        · rw [Nat.xor_zero, cmulR_zero_left, Nat.xor_zero]
        · have hx : a ^^^ b ≠ 0 := fun h => hab (Nat.xor_eq_zero.mp h)
          rw [cmulR_eq, if_neg hx, Nat.xor_div_two, ih (a / 2) (by omega),
            cmulR_eq a c, if_neg (show ¬(a = 0) by omega),
            cmulR_eq b c, if_neg (show ¬(b = 0) by omega), xor_swap_mid]
          congr 1
          rcases Nat.mod_two_eq_zero_or_one a with h2 | h2 <;>
            rcases Nat.mod_two_eq_zero_or_one b with h3 | h3
          · have h4 : ¬(a ^^^ b) % 2 = 1 := by
              rw [Nat.xor_mod_two_eq_one]
              simp [h2, h3]
            rw [if_neg h4, if_neg (show ¬(a % 2 = 1) by omega),
              if_neg (show ¬(b % 2 = 1) by omega), Nat.xor_self]
          · have h4 : (a ^^^ b) % 2 = 1 := by
              rw [Nat.xor_mod_two_eq_one]
              simp [h2, h3]
            rw [if_pos h4, if_neg (show ¬(a % 2 = 1) by omega), if_pos h3, Nat.zero_xor]
          · have h4 : (a ^^^ b) % 2 = 1 := by
              rw [Nat.xor_mod_two_eq_one]
              simp [h2, h3]
            rw [if_pos h4, if_pos h2, if_neg (show ¬(b % 2 = 1) by omega), Nat.xor_zero]
          · have h4 : ¬(a ^^^ b) % 2 = 1 := by
              rw [Nat.xor_mod_two_eq_one]
              simp [h2, h3]
            rw [if_neg h4, if_pos h2, if_pos h3, Nat.xor_self]

theorem cmulR_xor_right (a b c : Nat) : cmulR a (b ^^^ c) = cmulR a b ^^^ cmulR a c := by
  induction a using Nat.strong_induction_on generalizing b c with
  | _ a ih =>
    rcases Nat.eq_zero_or_pos a with rfl | ha
    · rw [cmulR_zero_left, cmulR_zero_left, cmulR_zero_left]
      simp
    · rw [cmulR_eq, if_neg (show ¬(a = 0) by omega), cmulR_eq a b,
        if_neg (show ¬(a = 0) by omega), cmulR_eq a c, if_neg (show ¬(a = 0) by omega),
        two_mul_xor, ih (a / 2) (by omega), xor_swap_mid]
      congr 1
      split <;> simp

theorem cmulR_one_right (a : Nat) : cmulR a 1 = a := by
  induction a using Nat.strong_induction_on with
  | _ a ih =>
    rcases Nat.eq_zero_or_pos a with rfl | ha
    · rw [cmulR_zero_left]
    · rw [cmulR_eq, if_neg (show ¬(a = 0) by omega),
        show cmulR (a / 2) (2 * 1) = 2 * cmulR (a / 2) 1 from cmulR_two_mul_right _ _,
        ih (a / 2) (by omega)]
      rcases Nat.mod_two_eq_zero_or_one a with h2 | h2
      · rw [if_neg (show ¬(a % 2 = 1) by omega), Nat.zero_xor]
        omega
      · rw [if_pos h2, xor_two_mul_add (x := 1) (a / 2) (by norm_num)]
        omega

theorem cmulR_comm (a b : Nat) : cmulR a b = cmulR b a := by
  induction b using Nat.strong_induction_on generalizing a with
  | _ b ih =>
    rcases Nat.eq_zero_or_pos b with rfl | hb
    · rw [cmulR_zero_right, cmulR_zero_left]
    · rcases Nat.mod_two_eq_zero_or_one b with h2 | h2
      · have hsplit : b = 2 * (b / 2) := by omega
        conv_lhs => rw [hsplit]
        conv_rhs => rw [hsplit]
        rw [cmulR_two_mul_right, cmulR_shift, cmulR_two_mul_right,
          ih (b / 2) (by omega) a]
      · have hsplit : b = 1 ^^^ 2 * (b / 2) := by
          rw [xor_two_mul_add (x := 1) (b / 2) (by norm_num)]
          omega
        conv_lhs => rw [hsplit]
        conv_rhs => rw [hsplit]
        rw [cmulR_xor_right, cmulR_xor_left, cmulR_one_right, cmulR_one_left,
          cmulR_two_mul_right, cmulR_shift, cmulR_two_mul_right,
          ih (b / 2) (by omega) a]

theorem cmulR_assoc (a b c : Nat) : cmulR (cmulR a b) c = cmulR a (cmulR b c) := by
  induction a using Nat.strong_induction_on generalizing b c with
  | _ a ih =>
    rcases Nat.eq_zero_or_pos a with rfl | ha
    · rw [cmulR_zero_left, cmulR_zero_left, cmulR_zero_left]
    · rcases Nat.mod_two_eq_zero_or_one a with h2 | h2
      · have hsplit : a = 2 * (a / 2) := by omega
        conv_lhs => rw [hsplit]
        conv_rhs => rw [hsplit]
        rw [cmulR_shift, ih (a / 2) (by omega), cmulR_shift, cmulR_shift,
          ← cmulR_two_mul_right]
      · have hsplit : a = 1 ^^^ 2 * (a / 2) := by
          rw [xor_two_mul_add (x := 1) (a / 2) (by norm_num)]
          omega
        conv_lhs => rw [hsplit]
        conv_rhs => rw [hsplit]
        rw [cmulR_xor_left, cmulR_one_left, cmulR_xor_left, cmulR_xor_left, cmulR_one_left,
          cmulR_shift, ih (a / 2) (by omega), cmulR_shift, cmulR_shift,
          ← cmulR_two_mul_right]

theorem cmulR_lt : ∀ (a : Nat) {b : Nat} (m n : Nat), a < 2^m → b < 2^n →
    cmulR a b < 2^(m + n - 1) := by
  intro a
  induction a using Nat.strong_induction_on with
  | _ a ih =>
    intro b m n ha hb
    rcases Nat.eq_zero_or_pos a with rfl | hpos
    · rw [cmulR_zero_left]
      exact Nat.two_pow_pos _
    · have hm : 1 ≤ m := by
        rcases Nat.eq_zero_or_pos m with rfl | h
        · norm_num at ha
          omega
        · exact h
      have ha2 : a / 2 < 2^(m-1) := by
        rw [Nat.div_lt_iff_lt_mul (by norm_num : (0:Nat) < 2)]
        have h2 : (2:Nat)^(m-1) * 2 = 2^m := by
          rw [← Nat.pow_succ]
          congr 1
          omega
        omega
      have hb2 : 2 * b < 2^(n+1) := by
        rw [Nat.pow_succ]
        omega
      have hrec := ih (a / 2) (by omega) (m - 1) (n + 1) ha2 hb2
      have hmn : m - 1 + (n + 1) - 1 = m + n - 1 := by omega
      rw [hmn] at hrec
      rw [cmulR_eq, if_neg (by omega)]
      apply Nat.xor_lt_two_pow _ hrec
      split
      · calc b < 2^n := hb
          _ ≤ 2^(m+n-1) := Nat.pow_le_pow_right (by norm_num) (by omega)
      · exact Nat.two_pow_pos _

/-! ## Reduction modulo the GHASH polynomial and the field laws of `gfMul` -/

theorem xor_rotate (w x y z : Nat) : ((w ^^^ x) ^^^ y) ^^^ z = w ^^^ (z ^^^ (x ^^^ y)) := by
  apply Nat.eq_of_testBit_eq
  intro i
  simp only [Nat.testBit_xor]
  cases w.testBit i <;> cases x.testBit i <;> cases y.testBit i <;> cases z.testBit i <;> rfl

theorem cmulR_two_pow_left (k b : Nat) : cmulR (2^k) b = b <<< k := by
  induction k generalizing b with
  | zero =>
    rw [Nat.pow_zero, cmulR_one_left, Nat.shiftLeft_zero]
  | succ k ih =>
    rw [Nat.pow_succ, Nat.mul_comm, cmulR_shift, ih (2 * b),
      Nat.shiftLeft_eq, Nat.shiftLeft_eq, Nat.pow_succ]
    ring

theorem pmodStepsFrom_identity : ∀ (k x : Nat), ∃ q, x = pmodStepsFrom k x ^^^ cmulR q gcmPoly := by
  intro k
  induction k with
  | zero =>
    intro x
    exact ⟨0, by simp [pmodStepsFrom, cmulR_zero_left]⟩
  | succ k ih =>
    intro x
    simp only [pmodStepsFrom]
    split
    · obtain ⟨q, hq⟩ := ih (x ^^^ gcmPoly <<< k)
      refine ⟨q ^^^ 2^k, ?_⟩
      rw [cmulR_xor_left, cmulR_two_pow_left, ← Nat.xor_assoc, ← hq, Nat.xor_cancel_right]
    · exact ih x

theorem testBit_gcmPoly_128 : gcmPoly.testBit 128 = true := by decide

theorem gcmPoly_lt : gcmPoly < 2^129 := by
  have h : gcmPoly = 2^128 + 0x87 := rfl
  have h2 : (2:Nat)^129 = 2^128 + 2^128 := by
    rw [Nat.pow_succ]
    ring
  have h3 : (0x87 : Nat) < 2^128 := by
    calc (0x87 : Nat) < 2^8 := by norm_num
      _ ≤ 2^128 := Nat.pow_le_pow_right (by norm_num) (by norm_num)
  omega

theorem shl_lt {x : Nat} {n : Nat} (h : x < 2^n) (k : Nat) : x <<< k < 2^(n + k) := by
  rw [Nat.shiftLeft_eq, Nat.pow_add]
  exact Nat.mul_lt_mul_of_lt_of_le h (Nat.le_refl _) (Nat.two_pow_pos _)

theorem pmodStepsFrom_lt : ∀ (k x : Nat), x < 2^(128 + k) → pmodStepsFrom k x < 2^128 := by
  intro k
  induction k with
  | zero =>
    intro x hx
    exact hx
  | succ k ih =>
    intro x hx
    simp only [pmodStepsFrom]
    split
    · rename_i hbit
      apply ih
      apply Nat.lt_pow_two_of_testBit
      intro i hi
      rcases eq_or_lt_of_le hi with rfl | hgt
      · rw [Nat.testBit_xor, hbit, Nat.testBit_shiftLeft]
        have h2 : 128 + k - k = 128 := by omega
        simp [h2, testBit_gcmPoly_128]
      · have hx2 : x.testBit i = false := Nat.testBit_lt_two_pow (by
          calc x < 2^(128 + (k+1)) := hx
            _ ≤ 2^i := Nat.pow_le_pow_right (by norm_num) (by omega))
        have hp2 : (gcmPoly <<< k).testBit i = false := Nat.testBit_lt_two_pow (by
          calc gcmPoly <<< k < 2^(129 + k) := shl_lt gcmPoly_lt k
            _ ≤ 2^i := Nat.pow_le_pow_right (by norm_num) (by omega))
        rw [Nat.testBit_xor, hx2, hp2]
        rfl
    · rename_i hbit
      apply ih
      apply Nat.lt_pow_two_of_testBit
      intro i hi
      rcases eq_or_lt_of_le hi with rfl | hgt
      · simpa using hbit
      · apply Nat.testBit_lt_two_pow
        calc x < 2^(128 + (k+1)) := hx
          _ ≤ 2^i := Nat.pow_le_pow_right (by norm_num) (by omega)

theorem pmodStepsFrom_id_of_lt : ∀ (k : Nat) {x : Nat}, x < 2^128 → pmodStepsFrom k x = x := by
  intro k
  induction k with
  | zero =>
    intro x _
    rfl
  | succ k ih =>
    intro x hx
    simp only [pmodStepsFrom]
    rw [if_neg]
    · exact ih hx
    · simp only [Bool.not_eq_true]
      apply Nat.testBit_lt_two_pow
      calc x < 2^128 := hx
        _ ≤ 2^(128 + k) := Nat.pow_le_pow_right (by norm_num) (by omega)

theorem two_pow_le_gcmPoly : 2^128 ≤ gcmPoly := by
  have h : gcmPoly = 2^128 + 0x87 := rfl
  omega

theorem cmulR_gcmPoly_ge : ∀ {q : Nat}, q ≠ 0 → 2^128 ≤ cmulR q gcmPoly := by
  intro q
  induction q using Nat.strong_induction_on with
  | _ q ih =>
    intro hq
    rcases Nat.mod_two_eq_zero_or_one q with h2 | h2
    · have hsplit : q = 2 * (q / 2) := by omega
      conv_rhs => rw [hsplit]
      rw [cmulR_shift, cmulR_two_mul_right]
      have hrec := ih (q / 2) (by omega) (by omega)
      omega
    · rcases Nat.eq_zero_or_pos (q / 2) with hz | hpos
      · have hq1 : q = 1 := by omega
        subst hq1
        rw [cmulR_one_left]
        exact two_pow_le_gcmPoly
      · have hsplit : q = 1 ^^^ 2 * (q / 2) := by
          rw [xor_two_mul_add (x := 1) (q / 2) (by norm_num)]
          omega
        conv_rhs => rw [hsplit]
        rw [cmulR_xor_left, cmulR_one_left, cmulR_shift, cmulR_two_mul_right]
        have hrec := ih (q / 2) (by omega) (by omega)
        have hbig : 2^129 ≤ 2 * cmulR (q / 2) gcmPoly := by
          have h3 : (2:Nat)^129 = 2 * 2^128 := by
            rw [Nat.pow_succ]
            ring
          omega
        obtain ⟨i, hi, hbit⟩ := Nat.ge_two_pow_implies_high_bit_true hbig
        have hpoly : gcmPoly.testBit i = false := by
          apply Nat.testBit_lt_two_pow
          calc gcmPoly < 2^129 := gcmPoly_lt
            _ ≤ 2^i := Nat.pow_le_pow_right (by norm_num) hi
        have hxor : (gcmPoly ^^^ 2 * cmulR (q / 2) gcmPoly).testBit i = true := by
          rw [Nat.testBit_xor, hpoly, hbit]
          rfl
        calc 2^128 ≤ 2^i := Nat.pow_le_pow_right (by norm_num) (by omega)
          _ ≤ gcmPoly ^^^ 2 * cmulR (q / 2) gcmPoly := Nat.testBit_implies_ge hxor

theorem pmodStepsFrom_eq_of {k x y q : Nat} (hx : x < 2^(128 + k)) (hy : y < 2^128)
    (h : x = y ^^^ cmulR q gcmPoly) : pmodStepsFrom k x = y := by
  obtain ⟨q2, hq2⟩ := pmodStepsFrom_identity k x
  have hplt := pmodStepsFrom_lt k x hx
  have e : pmodStepsFrom k x ^^^ cmulR q2 gcmPoly = y ^^^ cmulR q gcmPoly := by
    rw [← hq2, ← h]
  have e2 : pmodStepsFrom k x ^^^ y = cmulR (q2 ^^^ q) gcmPoly := by
    rw [cmulR_xor_left]
    have h4 : (pmodStepsFrom k x ^^^ cmulR q2 gcmPoly) ^^^ (y ^^^ cmulR q gcmPoly) =
        (pmodStepsFrom k x ^^^ y) ^^^ (cmulR q2 gcmPoly ^^^ cmulR q gcmPoly) :=
      xor_swap_mid _ _ _ _
    rw [e, Nat.xor_self] at h4
    exact Nat.xor_eq_zero.mp h4.symm
  rcases eq_or_ne (q2 ^^^ q) 0 with h0 | h0
  · rw [h0, cmulR_zero_left] at e2
    exact Nat.xor_eq_zero.mp e2
  · have hge := cmulR_gcmPoly_ge h0
    have hlt : pmodStepsFrom k x ^^^ y < 2^128 := Nat.xor_lt_two_pow hplt hy
    omega

theorem div2_lt_pow {a n : Nat} (h : a < 2^(n+1)) : a / 2 < 2^n := by
  rw [Nat.div_lt_iff_lt_mul (by norm_num : (0:Nat) < 2)]
  have h2 : (2:Nat)^n * 2 = 2^(n+1) := by
    rw [Nat.pow_succ]
  omega

theorem pmulUpTo_peel : ∀ (n a b : Nat),
    pmulUpTo (n+1) a b = (if a % 2 = 1 then b else 0) ^^^ pmulUpTo n (a / 2) (2 * b) := by
  intro n
  induction n with
  | zero =>
    intro a b
    simp [pmulUpTo, Nat.testBit_zero, Nat.shiftLeft_zero]
  | succ n ih =>
    intro a b
    have hstep : pmulUpTo (n+1+1) a b =
        pmulUpTo (n+1) a b ^^^ (if a.testBit (n+1) then b <<< (n+1) else 0) := rfl
    rw [hstep, ih a b]
    have hsh : b <<< (n+1) = (2*b) <<< n := by
      rw [Nat.shiftLeft_eq, Nat.shiftLeft_eq, Nat.pow_succ]
      ring
    have hbit : a.testBit (n+1) = (a/2).testBit n := Nat.testBit_add_one a n
    rw [hsh, hbit, Nat.xor_assoc]
    congr 1

theorem pmulUpTo_eq_cmulR : ∀ (n a b : Nat), a < 2^n → pmulUpTo n a b = cmulR a b := by
  intro n
  induction n with
  | zero =>
    intro a b ha
    have h0 : a = 0 := by
      norm_num at ha
      omega
    subst h0
    rw [cmulR_zero_left]
    rfl
  | succ n ih =>
    intro a b ha
    rw [pmulUpTo_peel, ih (a/2) (2*b) (div2_lt_pow ha)]
    rcases Nat.eq_zero_or_pos a with rfl | hpos
    · rw [cmulR_zero_left]
      simp [cmulR_zero_left]
    · rw [cmulR_eq a b, if_neg (show ¬(a = 0) by omega)]

theorem gfMul_eq_pmod (a b : Nat) (ha : a < 2^128) :
    gfMul a b = pmodStepsFrom 127 (cmulR a b) := by
  unfold gfMul
  rw [pmulUpTo_eq_cmulR 128 a b ha]

theorem gfMul_lt (a b : Nat) (ha : a < 2^128) (hb : b < 2^128) : gfMul a b < 2^128 := by
  rw [gfMul_eq_pmod a b ha]
  apply pmodStepsFrom_lt
  exact cmulR_lt a 128 128 ha hb

theorem gfMul_zero_left (b : Nat) : gfMul 0 b = 0 := by
  rw [gfMul_eq_pmod 0 b (Nat.two_pow_pos _), cmulR_zero_left]
  exact pmodStepsFrom_id_of_lt _ (Nat.two_pow_pos _)

theorem gfMul_one_right (a : Nat) (ha : a < 2^128) : gfMul a 1 = a := by
  rw [gfMul_eq_pmod a 1 ha, cmulR_one_right]
  exact pmodStepsFrom_id_of_lt _ ha

theorem gfMul_xor_left (a b c : Nat) (ha : a < 2^128) (hb : b < 2^128) (hc : c < 2^128) :
    gfMul (a ^^^ b) c = gfMul a c ^^^ gfMul b c := by
  rw [gfMul_eq_pmod _ _ (Nat.xor_lt_two_pow ha hb), cmulR_xor_left]
  obtain ⟨qa, hqa⟩ := pmodStepsFrom_identity 127 (cmulR a c)
  obtain ⟨qb, hqb⟩ := pmodStepsFrom_identity 127 (cmulR b c)
  rw [← gfMul_eq_pmod a c ha] at hqa
  rw [← gfMul_eq_pmod b c hb] at hqb
  apply pmodStepsFrom_eq_of (q := qa ^^^ qb)
  · exact Nat.xor_lt_two_pow (cmulR_lt a 128 128 ha hc) (cmulR_lt b 128 128 hb hc)
  · exact Nat.xor_lt_two_pow (gfMul_lt a c ha hc) (gfMul_lt b c hb hc)
  · rw [cmulR_xor_left]
    conv_lhs => rw [hqa, hqb]
    rw [xor_swap_mid]

theorem gfMul_assoc {a b c : Nat} (ha : a < 2^128) (hb : b < 2^128) (hc : c < 2^128) :
    gfMul (gfMul a b) c = gfMul a (gfMul b c) := by
  have hab : gfMul a b < 2^128 := gfMul_lt a b ha hb
  have hbc : gfMul b c < 2^128 := gfMul_lt b c hb hc
  have hy : gfMul a (gfMul b c) < 2^128 := gfMul_lt a _ ha hbc
  obtain ⟨q1, hq1⟩ := pmodStepsFrom_identity 127 (cmulR a b)
  rw [← gfMul_eq_pmod a b ha] at hq1
  obtain ⟨q2, hq2⟩ := pmodStepsFrom_identity 127 (cmulR b c)
  rw [← gfMul_eq_pmod b c hb] at hq2
  obtain ⟨q3, hq3⟩ := pmodStepsFrom_identity 127 (cmulR a (gfMul b c))
  rw [← gfMul_eq_pmod a (gfMul b c) ha] at hq3
  rw [gfMul_eq_pmod _ c hab]
  apply pmodStepsFrom_eq_of (q := cmulR q1 c ^^^ (q3 ^^^ cmulR a q2))
  · exact cmulR_lt _ 128 128 hab hc
  · exact hy
  · have hG : gfMul a b = cmulR a b ^^^ cmulR q1 gcmPoly := by
      rw [hq1, Nat.xor_cancel_right]
    have hV : gfMul b c = cmulR b c ^^^ cmulR q2 gcmPoly := by
      rw [hq2, Nat.xor_cancel_right]
    calc cmulR (gfMul a b) c
        = cmulR (cmulR a b ^^^ cmulR q1 gcmPoly) c := by rw [← hG]
      _ = cmulR (cmulR a b) c ^^^ cmulR (cmulR q1 gcmPoly) c := cmulR_xor_left _ _ _
      _ = cmulR a (cmulR b c) ^^^ cmulR (cmulR q1 c) gcmPoly := by
          rw [cmulR_assoc, cmulR_assoc q1 gcmPoly c, cmulR_comm gcmPoly c,
            ← cmulR_assoc q1 c gcmPoly]
      _ = cmulR a (gfMul b c ^^^ cmulR q2 gcmPoly) ^^^ cmulR (cmulR q1 c) gcmPoly := by
          rw [hV, Nat.xor_cancel_right]
      _ = (cmulR a (gfMul b c) ^^^ cmulR (cmulR a q2) gcmPoly) ^^^ cmulR (cmulR q1 c) gcmPoly := by
          rw [cmulR_xor_right, ← cmulR_assoc]
      _ = ((gfMul a (gfMul b c) ^^^ cmulR q3 gcmPoly) ^^^ cmulR (cmulR a q2) gcmPoly) ^^^
            cmulR (cmulR q1 c) gcmPoly := by
          rw [hq3]
      _ = gfMul a (gfMul b c) ^^^ cmulR (cmulR q1 c ^^^ (q3 ^^^ cmulR a q2)) gcmPoly := by
          rw [cmulR_xor_left, cmulR_xor_left, xor_rotate]

theorem gfMul_inj_of_inv {H Hi : Nat} (hH : H < 2^128) (hHi : Hi < 2^128)
    (hinv : gfMul H Hi = 1) {d : Nat} (hd : d < 2^128) (hdne : d ≠ 0) : gfMul d H ≠ 0 := by
  intro h0
  have h1 : gfMul (gfMul d H) Hi = gfMul d (gfMul H Hi) := gfMul_assoc hd hH hHi
  rw [h0, gfMul_zero_left, hinv, gfMul_one_right d hd] at h1
  exact hdne h1.symm

/-! ## GHASH injectivity under an invertible subkey -/

theorem pmulUpTo_bound : ∀ (n a b m : Nat), b < 2^m → pmulUpTo n a b < 2^(m + n - 1) := by
  intro n
  induction n with
  | zero =>
    intro a b m _
    exact Nat.two_pow_pos _
  | succ n ih =>
    intro a b m hb
    have h1 : pmulUpTo n a b < 2^(m + n) := by
      calc pmulUpTo n a b < 2^(m + n - 1) := ih a b m hb
        _ ≤ 2^(m + n) := Nat.pow_le_pow_right (by norm_num) (by omega)
    have h2 : (if a.testBit n then b <<< n else 0) < 2^(m + n) := by
      split
      · exact shl_lt hb n
      · exact Nat.two_pow_pos _
    have h3 : m + (n + 1) - 1 = m + n := by omega
    rw [h3]
    exact Nat.xor_lt_two_pow h1 h2

theorem gfMul_lt_right (a b : Nat) (hb : b < 2^128) : gfMul a b < 2^128 := by
  unfold gfMul
  apply pmodStepsFrom_lt
  exact pmulUpTo_bound 128 a b 128 hb

theorem gfMul_arg_inj {H Hi : Nat} (hH : H < 2^128) (hHi : Hi < 2^128)
    (hinv : gfMul H Hi = 1) {u v : Nat} (hu : u < 2^128) (hv : v < 2^128) (hne : u ≠ v) :
    gfMul u H ≠ gfMul v H := by
  intro heq
  have hd : u ^^^ v ≠ 0 := fun hcon => hne (Nat.xor_eq_zero.mp hcon)
  have h0 := gfMul_inj_of_inv hH hHi hinv (Nat.xor_lt_two_pow hu hv) hd
  apply h0
  rw [gfMul_xor_left u v H hu hv hH, heq, Nat.xor_self]

theorem ghashBlocks_acc_inj {H Hi : Nat} (hH : H < 2^128) (hHi : Hi < 2^128)
    (hinv : gfMul H Hi = 1) :
    ∀ (blocks : List (List Nat)), (∀ blk ∈ blocks, polyOfBytes blk < 2^128) →
    ∀ {acc1 acc2 : Nat}, acc1 < 2^128 → acc2 < 2^128 → acc1 ≠ acc2 →
    ghashBlocks H acc1 blocks ≠ ghashBlocks H acc2 blocks := by
  intro blocks
  induction blocks with
  | nil =>
    intro _ acc1 acc2 _ _ hne
    simpa [ghashBlocks] using hne
  | cons blk rest ih =>
    intro hwf acc1 acc2 ha1 ha2 hne
    simp only [ghashBlocks]
    have hX : polyOfBytes blk < 2^128 := hwf _ (by simp)
    apply ih (fun y hy => hwf y (by simp [hy])) (gfMul_lt_right _ _ hH) (gfMul_lt_right _ _ hH)
    exact gfMul_arg_inj hH hHi hinv (Nat.xor_lt_two_pow ha1 hX) (Nat.xor_lt_two_pow ha2 hX)
      (fun hcon => hne (by
        have := congrArg (fun z => z ^^^ polyOfBytes blk) hcon
        simpa [Nat.xor_assoc] using this))

theorem ghashBlocks_ne {H Hi : Nat} (hH : H < 2^128) (hHi : Hi < 2^128)
    (hinv : gfMul H Hi = 1) :
    ∀ (B : List (List Nat)) (B2 : List (List Nat)) (j : Nat) (acc : Nat),
    acc < 2^128 → B.length = B2.length → j < B.length →
    (∀ blk ∈ B, polyOfBytes blk < 2^128) → (∀ blk ∈ B2, polyOfBytes blk < 2^128) →
    (∀ m, m < B.length → m ≠ j → B.getD m [] = B2.getD m []) →
    polyOfBytes (B.getD j []) ≠ polyOfBytes (B2.getD j []) →
    ghashBlocks H acc B ≠ ghashBlocks H acc B2 := by
  intro B
  induction B with
  | nil =>
    intro B2 j acc _ _ hj _ _ _ _
    simp at hj
  | cons x t ih =>
    intro B2 j acc hacc hlen hj hwf1 hwf2 hoth hdiff
    cases B2 with
    | nil => simp at hlen
    | cons y u =>
      cases j with
      | zero =>
        have htails : t = u := by
          apply List.ext_getElem (by simpa using hlen)
          intro m h1 h2
          have hm := hoth (m+1) (by simp; omega) (by omega)
          simpa [List.getD_cons_succ, List.getD_eq_getElem?_getD,
            List.getElem?_eq_getElem, h1, h2] using hm
        subst htails
        simp only [ghashBlocks]
        have hX : polyOfBytes x < 2^128 := hwf1 _ (by simp)
        have hY : polyOfBytes y < 2^128 := hwf2 _ (by simp)
        apply ghashBlocks_acc_inj hH hHi hinv t (fun z hz => hwf1 z (by simp [hz]))
          (gfMul_lt_right _ _ hH) (gfMul_lt_right _ _ hH)
        apply gfMul_arg_inj hH hHi hinv (Nat.xor_lt_two_pow hacc hX) (Nat.xor_lt_two_pow hacc hY)
        intro hcon
        apply hdiff
        simp only [List.getD_cons_zero]
        have h6 : acc ^^^ (acc ^^^ polyOfBytes x) = acc ^^^ (acc ^^^ polyOfBytes y) := by
          rw [hcon]
        rwa [Nat.xor_cancel_left, Nat.xor_cancel_left] at h6
      | succ j =>
        have hheads : x = y := by
          have h0 := hoth 0 (by simp) (by omega)
          simpa using h0
        subst hheads
        simp only [ghashBlocks]
        apply ih u j _ (gfMul_lt_right _ _ hH) (by simpa using hlen) (by simpa using hj)
          (fun z hz => hwf1 z (by simp [hz])) (fun z hz => hwf2 z (by simp [hz]))
        · intro m hm hmj
          have := hoth (m+1) (by simp; omega) (by omega)
          simpa using this
        · have := hdiff
          simpa using this

theorem byteRev_byteRev : ∀ b < 256, byteRev (byteRev b) = b := by decide

theorem polyOfBytes_lt : ∀ {l : List Nat}, allBytes l → polyOfBytes l < 2^(8 * l.length) := by
  intro l
  induction l with
  | nil =>
    intro _
    norm_num [polyOfBytes]
  | cons b t ih =>
    intro h
    have hb : byteRev b < 256 := byteRev_lt b
    have ht := ih (fun y hy => h y (List.mem_cons_of_mem _ hy))
    simp only [polyOfBytes, List.length_cons]
    have h2 : (2:Nat)^(8 * (t.length + 1)) = 256 * 2^(8 * t.length) := by
      rw [Nat.mul_add, Nat.pow_add]
      ring
    rw [h2]
    omega

theorem polyOfBytes_inj : ∀ {l1 l2 : List Nat}, l1.length = l2.length →
    allBytes l1 → allBytes l2 → polyOfBytes l1 = polyOfBytes l2 → l1 = l2 := by
  intro l1
  induction l1 with
  | nil =>
    intro l2 hlen _ _ _
    cases l2 with
    | nil => rfl
    | cons c u => simp at hlen
  | cons b t ih =>
    intro l2 hlen h1 h2 heq
    cases l2 with
    | nil => simp at hlen
    | cons c u =>
      simp only [polyOfBytes] at heq
      have hb : byteRev b < 256 := byteRev_lt b
      have hc : byteRev c < 256 := byteRev_lt c
      have hbr : byteRev b = byteRev c := by omega
      have hrest : polyOfBytes t = polyOfBytes u := by omega
      have hbc : b = c := by
        have e1 := byteRev_byteRev b (h1 b (List.mem_cons_self b t))
        have e2 := byteRev_byteRev c (h2 c (List.mem_cons_self c u))
        rw [← e1, ← e2, hbr]
      rw [hbc, ih (by simpa using hlen) (fun y hy => h1 y (List.mem_cons_of_mem _ hy))
        (fun y hy => h2 y (List.mem_cons_of_mem _ hy)) hrest]

theorem polyOfBytes_polyToBytes : ∀ (n x : Nat), x < 2^(8*n) →
    polyOfBytes (polyToBytes n x) = x := by
  intro n
  induction n with
  | zero =>
    intro x hx
    have h0 : x = 0 := by simpa using hx
    subst h0
    rfl
  | succ n ih =>
    intro x hx
    simp only [polyToBytes, polyOfBytes]
    have h2 : (2:Nat)^(8*(n+1)) = 256 * 2^(8*n) := by
      rw [Nat.mul_add, Nat.pow_add]
      ring
    have h1 : x / 256 < 2^(8*n) := by
      rw [h2] at hx
      omega
    rw [ih _ h1, byteRev_byteRev (x % 256) (Nat.mod_lt _ (by norm_num))]
    omega

theorem polyToBytes16_inj {x y : Nat} (hx : x < 2^128) (hy : y < 2^128)
    (h : polyToBytes 16 x = polyToBytes 16 y) : x = y := by
  have hpow : (2:Nat)^(8*16) = 2^128 := by norm_num
  have e1 := polyOfBytes_polyToBytes 16 x (by rw [hpow]; exact hx)
  have e2 := polyOfBytes_polyToBytes 16 y (by rw [hpow]; exact hy)
  rw [← e1, ← e2, h]

theorem gcmH_lt (key : List Nat) : gcmH key < 2^128 := by
  have h1 := polyOfBytes_lt (allBytes_aes256 key (List.replicate 16 0))
  rw [length_aes256] at h1
  have hpow : (2:Nat)^(8*16) = 2^128 := by norm_num
  rw [hpow] at h1
  exact h1

theorem ghashBlocks_lt {H : Nat} (hH : H < 2^128) :
    ∀ (bs : List (List Nat)) {acc : Nat}, acc < 2^128 → ghashBlocks H acc bs < 2^128 := by
  intro bs
  induction bs with
  | nil =>
    intro acc h
    simpa [ghashBlocks] using h
  | cons blk rest ih =>
    intro acc h
    simp only [ghashBlocks]
    exact ih (gfMul_lt_right _ _ hH)

theorem length_padTo16 {l : List Nat} (h : l.length ≤ 16) : (padTo16 l).length = 16 := by
  simp [padTo16]
  omega

theorem allBytes_padTo16 {l : List Nat} (h : allBytes l) : allBytes (padTo16 l) :=
  allBytes_append h (allBytes_replicate _ 0 (by norm_num))

theorem length_blocksOf (l : List Nat) : (blocksOf l).length = (l.length + 15) / 16 := by
  simp [blocksOf]

theorem blocksOf_getD (l : List Nat) {j : Nat} (hj : j < (l.length + 15) / 16) :
    (blocksOf l).getD j [] = padTo16 ((l.drop (16 * j)).take 16) := by
  rw [List.getD_eq_getElem _ _ (by rw [length_blocksOf]; exact hj)]
  simp [blocksOf]

theorem blocksOf_poly_lt {l : List Nat} (h : allBytes l) :
    ∀ blk ∈ blocksOf l, polyOfBytes blk < 2^128 := by
  intro blk hm
  simp only [blocksOf, List.mem_map, List.mem_range] at hm
  obtain ⟨idx, _, hidx⟩ := hm
  subst hidx
  have hlen : (padTo16 ((l.drop (16*idx)).take 16)).length = 16 :=
    length_padTo16 (by rw [List.length_take]; omega)
  have hwf : allBytes (padTo16 ((l.drop (16*idx)).take 16)) :=
    allBytes_padTo16 (allBytes_take _ (allBytes_drop _ h))
  have hp := polyOfBytes_lt hwf
  rw [hlen] at hp
  have hpow : (2:Nat)^(8*16) = 2^128 := by norm_num
  rw [hpow] at hp
  exact hp

theorem length_lenBlock (n : Nat) : (lenBlock n).length = 16 := by
  simp [lenBlock, length_natToBytesBE]

theorem allBytes_lenBlock (n : Nat) : allBytes (lenBlock n) :=
  allBytes_append (allBytes_natToBytesBE _ _) (allBytes_natToBytesBE _ _)

theorem lenBlock_poly_lt (n : Nat) : polyOfBytes (lenBlock n) < 2^128 := by
  have hp := polyOfBytes_lt (allBytes_lenBlock n)
  rw [length_lenBlock] at hp
  have hpow : (2:Nat)^(8*16) = 2^128 := by norm_num
  rw [hpow] at hp
  exact hp

theorem getD_append_lt {α : Type} (a b : List α) (d : α) :
    ∀ (m : Nat), m < a.length → (a ++ b).getD m d = a.getD m d := by
  induction a with
  | nil =>
    intro m hm
    simp at hm
  | cons x t ih =>
    intro m hm
    cases m with
    | zero => rfl
    | succ m =>
      simp only [List.cons_append, List.getD_cons_succ]
      exact ih m (by simpa using hm)

theorem getD_append_ge {α : Type} (a b : List α) (d : α) :
    ∀ (m : Nat), a.length ≤ m → (a ++ b).getD m d = b.getD (m - a.length) d := by
  induction a with
  | nil =>
    intro m _
    simp
  | cons x t ih =>
    intro m hm
    cases m with
    | zero => simp at hm
    | succ m =>
      simp only [List.cons_append, List.getD_cons_succ, List.length_cons]
      rw [ih m (by simpa using hm)]
      congr 1
      omega

theorem block_set_other {ct : List Nat} (i b : Nat) {j : Nat} (hne : j ≠ i / 16) :
    padTo16 (((ct.set i b).drop (16 * j)).take 16) = padTo16 ((ct.drop (16 * j)).take 16) := by
  congr 1
  apply List.ext_getElem
  · simp
  · intro m h1 h2
    have hm16 : m < 16 := by
      rw [List.length_take] at h1
      omega
    simp only [List.getElem_take, List.getElem_drop, List.getElem_set]
    rw [if_neg (show ¬(i = 16 * j + m) by omega)]

theorem blocks_set_diff {ct : List Nat} {i b : Nat} (hi : i < ct.length)
    (hbne : b ≠ ct.getD i 0) :
    padTo16 (((ct.set i b).drop (16 * (i / 16))).take 16) ≠
      padTo16 ((ct.drop (16 * (i / 16))).take 16) := by
  intro h
  apply hbne
  have h0 := congrArg (fun l => l.getD (i % 16) 0) h
  simp only at h0
  have hm1 : i % 16 < (((ct.set i b).drop (16 * (i / 16))).take 16).length := by
    simp only [List.length_take, List.length_drop, List.length_set]
    omega
  have hm2 : i % 16 < ((ct.drop (16 * (i / 16))).take 16).length := by
    simp only [List.length_take, List.length_drop]
    omega
  unfold padTo16 at h0
  rw [getD_append_lt _ _ _ _ hm1, getD_append_lt _ _ _ _ hm2,
    List.getD_eq_getElem _ _ hm1, List.getD_eq_getElem _ _ hm2] at h0
  simp only [List.getElem_take, List.getElem_drop, List.getElem_set] at h0
  rw [if_pos (show i = 16 * (i / 16) + i % 16 by omega)] at h0
  rw [List.getD_eq_getElem _ _ hi, h0]
  simp only [show 16 * (i / 16) + i % 16 = i from by omega]

theorem set_ne_of_ne {l : List Nat} {i b : Nat} (hi : i < l.length) (hb : b ≠ l.getD i 0) :
    l.set i b ≠ l := by
  intro h
  apply hb
  have h0 := congrArg (fun z => z.getD i 0) h
  simp only at h0
  rw [List.getD_eq_getElem _ _ (by simpa using hi), List.getD_eq_getElem _ _ hi] at h0
  simp only [List.getElem_set, if_true] at h0
  rw [List.getD_eq_getElem _ _ hi]
  exact h0

theorem zipXor_right_inj {a c e : List Nat} (ha : a.length ≤ e.length)
    (hc : c.length ≤ e.length) (h : zipXor a e = zipXor c e) : a = c := by
  have h1 := zipXor_cancel a e ha
  have h2 := zipXor_cancel c e hc
  rw [← h1, ← h2, h]

theorem length_gcmS (key ct : List Nat) : (gcmS key ct).length = 16 := by
  simp [gcmS, length_polyToBytes]

theorem gcmS_eq_of_tag_eq {key iv d d2 : List Nat}
    (h : gcmTag key iv d = gcmTag key iv d2) : gcmS key d = gcmS key d2 := by
  unfold gcmTag at h
  exact zipXor_right_inj (by rw [length_gcmS, length_aes256])
    (by rw [length_gcmS, length_aes256]) h

theorem unwrap_mismatch {key2 iv ct tg : List Nat} (hk : key2.length = 32)
    (hiv : iv.length = 12) (hivb : allBytes iv) (hctb : allBytes ct) (htgb : allBytes tg)
    (htgl : tg.length = 16) (hne : gcmTag key2 iv ct ≠ tg) :
    getDecryptionKey key2 { decryption_key := ⟨b64encode (iv ++ ct ++ tg)⟩ } =
      .error .authFailed := by
  unfold getDecryptionKey
  simp only [bufSlice_iv, bufSlice_ct, bufSlice_tag]
  rw [List.append_assoc]
  rw [b64_roundtrip (allBytes_append hivb (allBytes_append hctb htgb))]
  rw [envelope_take12 hiv, envelope_ct hiv htgl, envelope_tag hiv htgl]
  unfold decrypt
  rw [if_neg (by omega), if_neg (by omega), if_neg (by rw [htgl]; decide),
    if_neg (by rw [htgl, ← length_gcmTag key2 iv ct, List.take_length]; exact hne)]

theorem gcmTag_set_ne {key iv ct : List Nat} {Hi : Nat} (hHi : Hi < 2^128)
    (hinv : gfMul (gcmH key) Hi = 1) (hctb : allBytes ct) {i b : Nat}
    (hi : i < ct.length) (hb : b < 256) (hbne : b ≠ ct.getD i 0) :
    gcmTag key iv (ct.set i b) ≠ gcmTag key iv ct := by
  intro heq
  have hH := gcmH_lt key
  have hS := gcmS_eq_of_tag_eq heq
  simp only [gcmS, List.length_set] at hS
  have hgh := polyToBytes16_inj (ghashBlocks_lt hH _ (by norm_num))
    (ghashBlocks_lt hH _ (by norm_num)) hS
  have hdivlt : i / 16 < (ct.length + 15) / 16 := by omega
  refine ghashBlocks_ne hH hHi hinv
    (blocksOf (ct.set i b) ++ [lenBlock ct.length])
    (blocksOf ct ++ [lenBlock ct.length]) (i / 16) 0 (by norm_num)
    ?hl ?hj ?w1 ?w2 ?ho ?hd hgh
  case hl => simp [length_blocksOf]
  case hj =>
    simp only [List.length_append, length_blocksOf, List.length_set, List.length_singleton]
    omega
  case w1 =>
    intro blk hm
    rcases List.mem_append.mp hm with hml | hmr
    · exact blocksOf_poly_lt (allBytes_set hctb hb) blk hml
    · have : blk = lenBlock ct.length := by simpa using hmr
      rw [this]
      exact lenBlock_poly_lt _
  case w2 =>
    intro blk hm
    rcases List.mem_append.mp hm with hml | hmr
    · exact blocksOf_poly_lt hctb blk hml
    · have : blk = lenBlock ct.length := by simpa using hmr
      rw [this]
      exact lenBlock_poly_lt _
  case ho =>
    intro m hm hmj
    by_cases hc : m < (ct.length + 15) / 16
    · rw [getD_append_lt _ _ _ _ (by rw [length_blocksOf, List.length_set]; exact hc),
        getD_append_lt _ _ _ _ (by rw [length_blocksOf]; exact hc),
        blocksOf_getD _ (by rw [List.length_set]; exact hc), blocksOf_getD _ hc]
      exact block_set_other i b hmj
    · have hm' : m = (ct.length + 15) / 16 := by
        simp only [List.length_append, length_blocksOf, List.length_set,
          List.length_singleton] at hm
        omega
      subst hm'
      rw [getD_append_ge _ _ _ _ (by rw [length_blocksOf, List.length_set]),
        getD_append_ge _ _ _ _ (by rw [length_blocksOf])]
      simp [length_blocksOf]
  case hd =>
    rw [getD_append_lt _ _ _ _ (by rw [length_blocksOf, List.length_set]; exact hdivlt),
      getD_append_lt _ _ _ _ (by rw [length_blocksOf]; exact hdivlt),
      blocksOf_getD _ (by rw [List.length_set]; exact hdivlt), blocksOf_getD _ hdivlt]
    intro hcon
    have hl1 : (padTo16 (((ct.set i b).drop (16 * (i / 16))).take 16)).length = 16 :=
      length_padTo16 (by rw [List.length_take]; omega)
    have hl2 : (padTo16 ((ct.drop (16 * (i / 16))).take 16)).length = 16 :=
      length_padTo16 (by rw [List.length_take]; omega)
    exact blocks_set_diff hi hbne (polyOfBytes_inj (by rw [hl1, hl2])
      (allBytes_padTo16 (allBytes_take _ (allBytes_drop _ (allBytes_set hctb hb))))
      (allBytes_padTo16 (allBytes_take _ (allBytes_drop _ hctb))) hcon)

/-- C5: for a valid envelope IV ‖ ciphertext ‖ tag produced by AES-256-GCM
under a 32-byte key (whose GHASH subkey is invertible, certified by an
explicit inverse `Hi`), (a) changing any single byte of the tag, (b)
changing any single byte of the ciphertext, or (c) unwrapping with a wrong
32-byte key — one whose recomputed tag differs — makes `getDecryptionKey`
fail with the auth-failure error thrown by `decipher.final()`; the error is
returned to the caller, and no key is ever returned for such an envelope. -/
theorem unwrap_integrity (key iv pt : List Nat) (Hi : Nat) (hk : key.length = 32)
    (hiv : iv.length = 12) (hivb : allBytes iv) (hptb : allBytes pt)
    (hHi : Hi < 2^128) (hinv : gfMul (gcmH key) Hi = 1) :
    (∀ i b : Nat, i < 16 → b < 256 → b ≠ (aes256gcmEncrypt key iv pt).2.getD i 0 →
      getDecryptionKey key
        { decryption_key := ⟨b64encode (iv ++ (aes256gcmEncrypt key iv pt).1 ++
            ((aes256gcmEncrypt key iv pt).2.set i b))⟩ } = .error .authFailed) ∧
    (∀ i b : Nat, i < (aes256gcmEncrypt key iv pt).1.length → b < 256 →
      b ≠ (aes256gcmEncrypt key iv pt).1.getD i 0 →
      getDecryptionKey key
        { decryption_key := ⟨b64encode (iv ++ ((aes256gcmEncrypt key iv pt).1.set i b) ++
            (aes256gcmEncrypt key iv pt).2)⟩ } = .error .authFailed) ∧
    (∀ key2 : List Nat, key2.length = 32 →
      gcmTag key2 iv (aes256gcmEncrypt key iv pt).1 ≠ (aes256gcmEncrypt key iv pt).2 →
      getDecryptionKey key2
        { decryption_key := ⟨b64encode (iv ++ (aes256gcmEncrypt key iv pt).1 ++
            (aes256gcmEncrypt key iv pt).2)⟩ } = .error .authFailed) := by
  simp only [aes256gcmEncrypt]
  have hctb : allBytes (gctr key iv pt) := allBytes_gctr hptb
  have htgb : allBytes (gcmTag key iv (gctr key iv pt)) := allBytes_gcmTag _ _ _
  have htgl : (gcmTag key iv (gctr key iv pt)).length = 16 := length_gcmTag _ _ _
  refine ⟨?ta, ?tb, ?tc⟩
  case ta =>
    intro i b hi hb hbne
    exact unwrap_mismatch hk hiv hivb hctb (allBytes_set htgb hb)
      (by rw [List.length_set, htgl])
      (Ne.symm (set_ne_of_ne (by rw [htgl]; exact hi) hbne))
  case tb =>
    intro i b hi hb hbne
    exact unwrap_mismatch hk hiv hivb (allBytes_set hctb hb) htgb htgl
      (gcmTag_set_ne hHi hinv hctb hi hb hbne)
  case tc =>
    intro key2 hk2 hne
    exact unwrap_mismatch hk2 hiv hivb hctb htgb htgl hne

set_option maxHeartbeats 4000000

theorem unwrap_integrity_witness :
    zKey.length = 32 ∧ zIV.length = 12 ∧ allBytes zIV ∧
    allBytes [104, 101, 108, 108, 111, 32, 119, 111, 114, 108, 100, 33] ∧
    (0x5d4a3e113c760d5936fdff3ae5035732 : Nat) < 2^128 ∧
    gfMul (gcmH zKey) 0x5d4a3e113c760d5936fdff3ae5035732 = 1 ∧
    ((∀ i b : Nat, i < 16 → b < 256 →
      b ≠ (aes256gcmEncrypt zKey zIV
            [104, 101, 108, 108, 111, 32, 119, 111, 114, 108, 100, 33]).2.getD i 0 →
      getDecryptionKey zKey
        { decryption_key := ⟨b64encode (zIV ++
            (aes256gcmEncrypt zKey zIV
              [104, 101, 108, 108, 111, 32, 119, 111, 114, 108, 100, 33]).1 ++
            ((aes256gcmEncrypt zKey zIV
              [104, 101, 108, 108, 111, 32, 119, 111, 114, 108, 100, 33]).2.set i b))⟩ } =
        .error .authFailed) ∧
    (∀ i b : Nat, i < (aes256gcmEncrypt zKey zIV
        [104, 101, 108, 108, 111, 32, 119, 111, 114, 108, 100, 33]).1.length → b < 256 →
      b ≠ (aes256gcmEncrypt zKey zIV
            [104, 101, 108, 108, 111, 32, 119, 111, 114, 108, 100, 33]).1.getD i 0 →
      getDecryptionKey zKey
        { decryption_key := ⟨b64encode (zIV ++
            ((aes256gcmEncrypt zKey zIV
              [104, 101, 108, 108, 111, 32, 119, 111, 114, 108, 100, 33]).1.set i b) ++
            (aes256gcmEncrypt zKey zIV
              [104, 101, 108, 108, 111, 32, 119, 111, 114, 108, 100, 33]).2)⟩ } =
        .error .authFailed) ∧
    (∀ key2 : List Nat, key2.length = 32 →
      gcmTag key2 zIV (aes256gcmEncrypt zKey zIV
        [104, 101, 108, 108, 111, 32, 119, 111, 114, 108, 100, 33]).1 ≠
        (aes256gcmEncrypt zKey zIV
          [104, 101, 108, 108, 111, 32, 119, 111, 114, 108, 100, 33]).2 →
      getDecryptionKey key2
        { decryption_key := ⟨b64encode (zIV ++
            (aes256gcmEncrypt zKey zIV
              [104, 101, 108, 108, 111, 32, 119, 111, 114, 108, 100, 33]).1 ++
            (aes256gcmEncrypt zKey zIV
              [104, 101, 108, 108, 111, 32, 119, 111, 114, 108, 100, 33]).2)⟩ } =
        .error .authFailed)) := by
  have h6 : gfMul (gcmH zKey) 0x5d4a3e113c760d5936fdff3ae5035732 = 1 := by decide
  exact ⟨by decide, by decide, by decide, by decide, by decide, h6,
    unwrap_integrity zKey zIV [104, 101, 108, 108, 111, 32, 119, 111, 114, 108, 100, 33]
      0x5d4a3e113c760d5936fdff3ae5035732
      (by decide) (by decide) (by decide) (by decide) (by decide) h6⟩

theorem registerDevice_swallows_only_deregistration_witness :
    truthyStr st0.loginToken = true ∧ validateSerial "PDU1-Y123456" = .ok () ∧
    ((registerDevice net0 st0 "PDU1-Y123456").1 = .error .referenceErrorDigit ∧
    (registerDevice net0 st0 "PDU1-Y123456").2.2 = (removeDevice net0 st0 "PDU1-Y123456").2 ∧
    (removeDevice net0 st0 "PDU1-Y123456").2.head? =
      some (.get (baseWebURL ++ "/devices/" ++ "PDU1-Y123456" ++ "/remove/"))) :=
  ⟨rfl, by decide,
   registerDevice_swallows_only_deregistration net0 st0 "PDU1-Y123456" rfl (by decide)⟩

end Playdate
